import Mathlib

/-!
Verification development for the UDP telemetry decode engine
(`src/tpg/index.ts`): header interpretation, device/message resolution,
per-field value extraction (scalar and bit-packed), dependent-label
resolution, the batch pipeline over a shared scratch buffer, and the
aggregation of parsed samples into a catalog of unique message identities.

JavaScript numbers are modelled as exact rationals (ℚ); the 32-bit signed
integer semantics of the JavaScript bitwise operators (`<<`, `>>`, `|`, `&`),
which the source uses in `getBits` and in byte accumulation, are modelled
exactly on `Int` via two's-complement conversion through `Nat`.
-/

namespace Bung

/-! ### JavaScript 32-bit bitwise-operator semantics

JavaScript coerces the operands of `<<`, `>>`, `|`, `&` with ToInt32
(value mod 2^32, interpreted as a signed 32-bit integer) and a shift count
with ToUint32 followed by mod 32. -/

/-- ToUint32: the operand's value mod 2^32 as a natural number. -/
def toU32 (x : Int) : Nat := (x % (2 ^ 32 : Int)).toNat

/-- Reinterpret a value mod 2^32 as a signed 32-bit integer. -/
def ofU32 (n : Nat) : Int :=
  if n % 2 ^ 32 < 2 ^ 31 then ((n % 2 ^ 32 : Nat) : Int)
  else ((n % 2 ^ 32 : Nat) : Int) - 2 ^ 32

/-- JavaScript `a << b` (shift count taken mod 32, result signed 32-bit). -/
def jsShl (a : Int) (b : Nat) : Int := ofU32 (toU32 a <<< (b % 32))

/-- JavaScript `a >> b` (sign-propagating right shift, count mod 32). -/
def jsShr (a : Int) (b : Nat) : Int :=
  let s := b % 32
  let v := toU32 a
  if v < 2 ^ 31 then ((v >>> s : Nat) : Int)
  else ((v >>> s : Nat) : Int) - 2 ^ (32 - s)

/-- JavaScript `a | b` on signed 32-bit integers. -/
def jsOr (a b : Int) : Int := ofU32 (toU32 a ||| toU32 b)

/-- JavaScript `a & b` on signed 32-bit integers. -/
def jsAnd (a b : Int) : Int := ofU32 (toU32 a &&& toU32 b)

/-- JavaScript `Math.round`: round half toward positive infinity. -/
def jsRound (q : ℚ) : Int := ⌊q + 1 / 2⌋

/-- The source's rounding idiom `Math.round(x * 1000) / 1000`: round to three
decimal places. -/
def roundTo3 (q : ℚ) : ℚ := ((jsRound (q * 1000) : ℚ)) / 1000

/-! ### Data model (the Zod schemas of `src/tpg/index.ts`)

Only the descriptor components the decoder reads are modelled; `display`,
`raw`, `sum_bools`, `offset` and `isHiddenOnChart` are never consulted by the
decode path and are omitted. Numeric descriptor components that the spec's
data model declares non-negative (byte offsets, bit positions, bit counts)
are carried as `Nat`. -/

/-- `DataTypeSchema`, the non-null alternatives. -/
inductive DataType where
  | uint8_t
  | uint16_t
  | uint32_t
  | uint64_t
  | float
  | bool
deriving DecidableEq, Repr

/-- `BitSchema`: one bit-subfield of a bit-packed field. -/
structure BitDef where
  Name : String
  Start : Nat
  Num : Nat
deriving DecidableEq, Repr

/-- `FieldDependencySchema`: location of the bit a dependent label reads.
The source checks `dep.bit < 0`, so the bit index is carried as `Int`. -/
structure FieldDep where
  byte : Nat
  bit : Int
deriving DecidableEq, Repr

/-- `UdpFieldSchema` restricted to the components the decoder reads.
`enum` only matters through its presence (the `isEnum` flag), so it is
carried as an association list. -/
structure UdpField where
  label : String
  bytes : List Nat
  type : Option DataType
  unit : String
  enum : Option (List (String × String)) := none
  bits : Option (List BitDef) := none
  use_enum : Int := 0
  use_bits : Int := 0
  multiplier : ℚ := 1
  dependent_on : Option FieldDep := none
deriving DecidableEq, Repr

/-- `PrefixEntrySchema`. -/
structure PrefixEntry where
  prefix_description : String
  Description : String
  Fields : List UdpField
deriving DecidableEq, Repr

/-- `MessageEntrySchema`. -/
structure MessageEntry where
  Description : String
  Fields : List UdpField
deriving DecidableEq, Repr

/-- The union `ConfigMessage` of prefix and message entries. -/
inductive ConfigMessage where
  | ofPrefixEntry (p : PrefixEntry)
  | ofMessageEntry (m : MessageEntry)
deriving DecidableEq, Repr

/-- The fields of either kind of entry. -/
def ConfigMessage.Fields : ConfigMessage → List UdpField
  | .ofPrefixEntry p => p.Fields
  | .ofMessageEntry m => m.Fields

/-- `MessageSectionSchema`: the two lookup tables of one device family.
JavaScript objects with string keys are modelled as association lists with
first-match lookup. -/
structure MessageSection where
  Prefixes : List (String × PrefixEntry)
  Messages : List (String × MessageEntry)
deriving DecidableEq, Repr

/-- `UdpConfigSchema`: the three sections of the descriptor tree. The schema
forces the `Other Messages` section's `Messages` table to be empty; that
constraint lives in the validated data, not in this shape. -/
structure UdpConfig where
  dockMessages : MessageSection
  swarmBotMessages : MessageSection
  otherMessages : MessageSection
deriving DecidableEq, Repr

/-- One input row (`LogRowWithDateAndMessageIDAndType`). The `date` string is
only ever used through `Number(...)`, so it is carried as the rational it
converts to; `message_id` and `type` are never read by the decoder and are
omitted. -/
structure LogRow where
  date : ℚ
  log : List Nat
deriving DecidableEq, Repr

/-- `ParsedLogMessage`: one decoded sample. -/
structure ParsedLogMessage where
  id : String
  label : String
  unit : String
  isEnum : Bool
  series : List (ℚ × ℚ)
  sender : String
deriving DecidableEq, Repr

/-! ### Device table -/

/-- The `deviceIds` literal, reversed into `deviceIdToNameMap` (all device
identifiers are distinct, so the reverse map is this association list). -/
def deviceIdToNameMap : List (Nat × String) :=
  [(0, "mainPLC"), (1, "mower"), (2, "spotSprayer"), (3, "offsetMower"),
   (4, "blanketSprayer"), (5, "spreader"), (256, "swarmView"), (257, "dock"),
   (258, "swarmbot"), (259, "paramSyncer"), (260, "tooling"),
   (65535, "invalid")]

/-- `deviceIdToNameMap[deviceId] || "invalid"`. -/
def deviceNameOf (deviceId : Nat) : String :=
  (deviceIdToNameMap.lookup deviceId).getD "invalid"

/-! ### Constants and the shared scratch buffer -/

def UDP_HEADER_LENGTH : Nat := 16

def MAX_UDP_MESSAGE_LENGTH : Nat := 2048

/-- The shared 2048-byte scratch buffer (`sharedBuffer` viewed through
`sharedUint8View` / `sharedDataView`), as its byte contents. -/
def Buffer : Type := Nat → Nat

/-- A fresh `ArrayBuffer` is zero-initialized. -/
def Buffer.empty : Buffer := fun _ => 0

/-- `sharedUint8View.set(rawMessage)`: copy the row's bytes over the front of
the scratch buffer; bytes past the row keep their previous contents. -/
def writeRow (buf : Buffer) (row : List Nat) : Buffer :=
  fun i => if i < row.length then row.getD i 0 else buf i

/-- The byte a `DataView.getUint8` read observes (buffer cells are bytes). -/
def byteAt (buf : Buffer) (i : Nat) : Nat := buf i % 256

/-- `getUint8`, with the `RangeError` a read past the 2048-byte buffer
raises modelled as `none`. -/
def readU8 (buf : Buffer) (i : Nat) : Option Nat :=
  if i + 1 ≤ MAX_UDP_MESSAGE_LENGTH then some (byteAt buf i) else none

/-- `getUint16(i, true)`: little-endian, `RangeError` as `none`. -/
def readU16 (buf : Buffer) (i : Nat) : Option Nat :=
  if i + 2 ≤ MAX_UDP_MESSAGE_LENGTH then
    some (byteAt buf i + 256 * byteAt buf (i + 1))
  else none

/-- `getUint32(i, true)`: little-endian, `RangeError` as `none`. -/
def readU32 (buf : Buffer) (i : Nat) : Option Nat :=
  if i + 4 ≤ MAX_UDP_MESSAGE_LENGTH then
    some (byteAt buf i + 256 * byteAt buf (i + 1) +
      65536 * byteAt buf (i + 2) + 16777216 * byteAt buf (i + 3))
  else none

/-- Exact value of an IEEE-754 binary32 bit pattern. Finite encodings are
decoded exactly; the exponent-255 encodings (infinities and NaNs), which no
claim exercises and which no descriptor produces on the decode paths under
study, are mapped to 0. -/
def decodeFloat32 (w : Nat) : ℚ :=
  let s : Nat := w / 2 ^ 31 % 2
  let e : Nat := w / 2 ^ 23 % 256
  let m : Nat := w % 2 ^ 23
  let mag : ℚ :=
    if e = 0 then (m : ℚ) / 2 ^ 149
    else if e = 255 then 0
    else ((2 ^ 23 + m : ℚ) * 2 ^ e) / 2 ^ 150
  if s = 1 then -mag else mag

/-- `getFloat32(i, true)`: little-endian, `RangeError` as `none`. -/
def readF32 (buf : Buffer) (i : Nat) : Option ℚ :=
  (readU32 buf i).map decodeFloat32

/-- `getUint16(6, true)` and `getUint16(0, true)` on the 2048-byte shared
buffer can never raise, so the header reads are total. -/
def headerU16 (buf : Buffer) (i : Nat) : Nat :=
  byteAt buf i + 256 * byteAt buf (i + 1)

/-! ### JavaScript `String.prototype.split` with a non-empty separator

(The source only splits on `" | "` and `"_"`.) Implemented on character
lists with a fuel argument so that it evaluates by kernel reduction; the
fuel `s.length + 1` always suffices since every step consumes at least one
character. -/

def isPrefixOfChars : List Char → List Char → Bool
  | [], _ => true
  | _ :: _, [] => false
  | a :: as, b :: bs => a == b && isPrefixOfChars as bs

def jsSplitGo (sep : List Char) : Nat → List Char → List Char → List String
  | 0, rest, acc => [String.mk (acc.reverse ++ rest)]
  | _ + 1, [], acc => [String.mk acc.reverse]
  | fuel + 1, c :: rest, acc =>
    if isPrefixOfChars sep (c :: rest) then
      String.mk acc.reverse ::
        jsSplitGo sep fuel ((c :: rest).drop sep.length) []
    else jsSplitGo sep fuel rest (c :: acc)

/-- `s.split(sep)` for a non-empty separator. -/
def jsSplit (s sep : String) : List String :=
  jsSplitGo sep.data (s.data.length + 1) s.data []

/-! ### Helpers (`src/tpg/index.ts` lines 184-274) -/

/-- `getBits`: `(value >> start) & ((1 << num) - 1)` under JavaScript 32-bit
operator semantics. -/
def getBits (value : Int) (start num : Nat) : Int :=
  jsAnd (jsShr value start) (jsShl 1 num - 1)

/-- One byte as `toString(16).padStart(2, "0").toLowerCase()`. -/
def hexDigit (n : Nat) : String :=
  ["0", "1", "2", "3", "4", "5", "6", "7", "8", "9", "a", "b", "c", "d",
   "e", "f"].getD n "0"

def byteToHex (n : Nat) : String := hexDigit (n / 16 % 16) ++ hexDigit (n % 16)

/-- `getMessageIdHex`: the two ID bytes at offsets 6..7, high byte first. -/
def getMessageIdHex (buf : Buffer) : String :=
  byteToHex (byteAt buf 7) ++ byteToHex (byteAt buf 6)

/-- `getDependentBit`: read one payload-relative bit with bounds checking.
In the pipeline `rawMessageLength ≤ 2048`, so the guarded `getUint8` cannot
overrun the shared buffer and the read is modelled total. -/
def getDependentBit (buf : Buffer) (rawMessageLength : Nat) (dep : FieldDep) :
    Option Nat :=
  let abs := UDP_HEADER_LENGTH + dep.byte
  if abs ≥ rawMessageLength ∨ dep.bit < 0 ∨ dep.bit > 7 then none
  else some (byteAt buf abs / 2 ^ dep.bit.toNat % 2)

/-- The `uint64_t` accumulation loop of `getNumericValueFromBytes`:
`value |= byte << (8 * i)` for `i < min(absByteOffsets.length, 8)`, under
JavaScript 32-bit operator semantics; a `RangeError` on a read is `none`. -/
def u64AccGo (buf : Buffer) : List Nat → Nat → Int → Option Int
  | [], _, value => some value
  | o :: rest, i, value =>
    if i < 8 then
      match readU8 buf o with
      | none => none
      | some b => u64AccGo buf rest (i + 1) (jsOr value (jsShl (b : Int) (8 * i)))
    else some value

/-- The little-endian value each branch of `getNumericValueFromBytes` reads,
before the `Math.round(… * 1000) / 1000` idiom is applied to it. -/
def rawScalarValue (buf : Buffer) (absByteOffsets : List Nat)
    (dataType : DataType) : Option ℚ :=
  let firstByteAbsOffset := absByteOffsets.headD 0
  match dataType with
  | .uint8_t => (readU8 buf firstByteAbsOffset).map (fun b => (b : ℚ))
  | .uint16_t => (readU16 buf firstByteAbsOffset).map (fun v => (v : ℚ))
  | .uint32_t => (readU32 buf firstByteAbsOffset).map (fun v => (v : ℚ))
  | .float => readF32 buf firstByteAbsOffset
  | .bool => (readU8 buf firstByteAbsOffset).map (fun b => if b = 1 then (1 : ℚ) else 0)
  | .uint64_t => (u64AccGo buf absByteOffsets 0 0).map (fun v => (v : ℚ))

/-- `getNumericValueFromBytes`: each branch rounds its decoded value with
`Math.round(x * 1000) / 1000`. The `case null: throw` branch is unreachable
from the decode path (the caller enters it only with a non-null type), so the
type argument here is the non-null `DataType`. -/
def getNumericValueFromBytes (buf : Buffer) (absByteOffsets : List Nat)
    (dataType : DataType) : Option ℚ :=
  let firstByteAbsOffset := absByteOffsets.headD 0
  match dataType with
  | .uint8_t => (readU8 buf firstByteAbsOffset).map (fun b => roundTo3 (b : ℚ))
  | .uint16_t => (readU16 buf firstByteAbsOffset).map (fun v => roundTo3 (v : ℚ))
  | .uint32_t => (readU32 buf firstByteAbsOffset).map (fun v => roundTo3 (v : ℚ))
  | .float => (readF32 buf firstByteAbsOffset).map roundTo3
  | .bool =>
    (readU8 buf firstByteAbsOffset).map
      (fun b => roundTo3 (if b = 1 then (1 : ℚ) else 0))
  | .uint64_t => (u64AccGo buf absByteOffsets 0 0).map (fun v => roundTo3 (v : ℚ))

/-! ### Field decoder (`parseFieldsFromConfig`, lines 280-428)

The local `try`/`catch` swallows any exception a field raises, so a field
whose decode throws contributes `[]`; helper functions return `Option` where
the source can throw and the caller maps `none` to `[]`. -/

/-- Label resolution from the dependency bit (lines 305-323). -/
def resolveFinalLabel (buf : Buffer) (rawMessageLength : Nat) (label : String)
    (dep : Option FieldDep) : String :=
  match dep with
  | none => label
  | some dependent_on =>
    match getDependentBit buf rawMessageLength dependent_on with
    | none => label
    | some bit =>
      let parts := jsSplit label " | "
      if parts.length = 2 then
        if bit ≠ 0 then parts.headD "" else parts.getD 1 ""
      else label

/-- The bit-field combining loop (lines 327-344): each byte is bounds-checked
against the message length and then ORed in at `8 * i`; an out-of-bounds
offset throws (`none`). -/
def combineBitBytes (buf : Buffer) (rawMessageLength : Nat) :
    List Nat → Nat → Int → Option Int
  | [], _, combinedValue => some combinedValue
  | byteOffset :: rest, i, combinedValue =>
    let bitFieldOffset := UDP_HEADER_LENGTH + byteOffset
    if bitFieldOffset ≥ rawMessageLength then none
    else
      combineBitBytes buf rawMessageLength rest (i + 1)
        (jsOr combinedValue (jsShl (byteAt buf bitFieldOffset : Int) (8 * i)))

/-- The bit-field branch (lines 325-366). -/
def bitFieldSamples (buf : Buffer) (rawMessageLength : Nat) (f : UdpField)
    (finalLabel : String) (messageTimestamp : ℚ)
    (messageIdStr deviceName messageIdHex : String)
    (bitConfigs : List BitDef) : List ParsedLogMessage :=
  match combineBitBytes buf rawMessageLength f.bytes 0 0 with
  | none => []
  | some combinedValue =>
    bitConfigs.map fun bitConfig =>
      let bitValue : ℚ :=
        if f.multiplier ≠ 1 then
          ((getBits combinedValue bitConfig.Start bitConfig.Num : Int) : ℚ) *
            f.multiplier
        else ((getBits combinedValue bitConfig.Start bitConfig.Num : Int) : ℚ)
      { label := messageIdStr ++ "_" ++ finalLabel ++ "_" ++ bitConfig.Name
        unit := f.unit
        isEnum := false
        series := [(messageTimestamp, bitValue)]
        id := deviceName ++ "_" ++ messageIdHex ++ "_" ++ finalLabel ++ "_" ++
          bitConfig.Name
        sender := deviceName }

/-- The standard (scalar) branch (lines 367-418); a field with no type falls
through to the skip branch and yields nothing. -/
def scalarFieldSamples (buf : Buffer) (rawMessageLength : Nat) (f : UdpField)
    (finalLabel : String) (messageTimestamp : ℚ)
    (deviceName messageIdHex : String) : List ParsedLogMessage :=
  match f.type with
  | none => []
  | some dataType =>
    if f.bytes = [] then []
    else
      let absByteOffsets := f.bytes.map (fun idx => UDP_HEADER_LENGTH + idx)
      if absByteOffsets.headD 0 + f.bytes.length > rawMessageLength ∨
          absByteOffsets.any (fun offset => offset ≥ rawMessageLength) then []
      else
        match getNumericValueFromBytes buf absByteOffsets dataType with
        | none => []
        | some v =>
          let value := if f.multiplier ≠ 1 then v * f.multiplier else v
          [{ label := finalLabel
             unit := f.unit
             isEnum := decide (f.use_enum = 1) && f.enum.isSome
             series := [(messageTimestamp, value)]
             id := deviceName ++ "_" ++ messageIdHex ++ "_" ++ finalLabel
             sender := deviceName }]

/-- All samples one field descriptor contributes. -/
def fieldSamples (buf : Buffer) (rawMessageLength : Nat) (f : UdpField)
    (messageTimestamp : ℚ) (messageIdStr deviceName messageIdHex : String) :
    List ParsedLogMessage :=
  let finalLabel := resolveFinalLabel buf rawMessageLength f.label f.dependent_on
  if f.use_bits = 1 then
    match f.bits with
    | some bitConfigs =>
      bitFieldSamples buf rawMessageLength f finalLabel messageTimestamp
        messageIdStr deviceName messageIdHex bitConfigs
    | none =>
      scalarFieldSamples buf rawMessageLength f finalLabel messageTimestamp
        deviceName messageIdHex
  else
    scalarFieldSamples buf rawMessageLength f finalLabel messageTimestamp
      deviceName messageIdHex

/-- `parseFieldsFromConfig`: the per-field loop appending every field's
samples to the output array. -/
def parseFieldsFromConfig (buf : Buffer) (rawMessageLength : Nat)
    (fieldConfigs : List UdpField) (messageTimestamp : ℚ)
    (messageIdStr deviceName messageIdHex : String) : List ParsedLogMessage :=
  (fieldConfigs.map fun f =>
    fieldSamples buf rawMessageLength f messageTimestamp messageIdStr
      deviceName messageIdHex).flatten

/-! ### Message resolver and batch pipeline (lines 433-508) -/

/-- The two-level lookup of `transformUDPLogToTimeSeries` (lines 477-491):
a prefix match on the identifier's high byte (rendered in decimal) wins and
reports identity `deviceName:messageIdHex`; otherwise the exact decimal
identifier is tried in the `Messages` table. -/
def resolveMessage (configSection : MessageSection) (messageIdLE : Nat)
    (deviceName messageIdHex : String) : Option (ConfigMessage × String) :=
  let messageIdHighByte := messageIdLE / 256 % 256
  let prefixStr := toString messageIdHighByte
  match configSection.Prefixes.lookup prefixStr with
  | some prefixConfig =>
    some (.ofPrefixEntry prefixConfig, deviceName ++ ":" ++ messageIdHex)
  | none =>
    let messageIdDecStr := toString messageIdLE
    match configSection.Messages.lookup messageIdDecStr with
    | some m => some (.ofMessageEntry m, messageIdDecStr)
    | none => none

/-- Section selection by device family (lines 469-475). -/
def sectionFor (cfg : UdpConfig) (deviceName : String) : MessageSection :=
  if deviceName = "dock" then cfg.dockMessages
  else if deviceName = "swarmbot" then cfg.swarmBotMessages
  else cfg.otherMessages

/-- Decoding of one (length-valid) row whose bytes have been copied into the
scratch buffer `buf`. -/
def processRow (cfg : UdpConfig) (buf : Buffer) (row : LogRow) :
    List ParsedLogMessage :=
  let currentMessageLength := row.log.length
  let messageIdLE := headerU16 buf 6
  let deviceId := headerU16 buf 0
  let deviceName := deviceNameOf deviceId
  let messageIdHex := getMessageIdHex buf
  let configSection := sectionFor cfg deviceName
  match resolveMessage configSection messageIdLE deviceName messageIdHex with
  | some (configMessage, messageIdStr) =>
    parseFieldsFromConfig buf currentMessageLength configMessage.Fields
      row.date messageIdStr deviceName messageIdHex
  | none => []

/-- The row loop of `transformUDPLogToTimeSeries`, with the scratch buffer
threaded explicitly: a row longer than `MAX_UDP_MESSAGE_LENGTH` or shorter
than `UDP_HEADER_LENGTH` is skipped before its bytes are copied in. -/
def transformGo (cfg : UdpConfig) : List LogRow → Buffer → List ParsedLogMessage
  | [], _ => []
  | row :: rest, buf =>
    if row.log.length > MAX_UDP_MESSAGE_LENGTH ∨
        row.log.length < UDP_HEADER_LENGTH then
      transformGo cfg rest buf
    else
      let bufWithRow := writeRow buf row.log
      processRow cfg bufWithRow row ++ transformGo cfg rest bufWithRow

/-- The scratch-buffer contents after a list of rows has been processed. -/
def runBuffer : List LogRow → Buffer → Buffer
  | [], buf => buf
  | row :: rest, buf =>
    if row.log.length > MAX_UDP_MESSAGE_LENGTH ∨
        row.log.length < UDP_HEADER_LENGTH then
      runBuffer rest buf
    else runBuffer rest (writeRow buf row.log)

/-- `transformUDPLogToTimeSeries`: the batch pipeline, starting from the
zero-initialized shared buffer. The descriptor tree, imported by the source
from `./udp_config` (not part of the repository's files), is a parameter. -/
def transformUDPLogToTimeSeries (cfg : UdpConfig) (tableRows : List LogRow) :
    List ParsedLogMessage :=
  transformGo cfg tableRows Buffer.empty

/-! ### Aggregator (`parseUDPLogToResponse`, lines 517-574) -/

/-- One entry of `unique_messages`; the `fields` array of `{label}` wrappers
is carried as the list of labels, in insertion order. -/
structure UniqueMessageEntry where
  id : String
  sender : String
  fields : List String
deriving DecidableEq, Repr

/-- `Set.add`: insert a label unless already present (insertion order kept). -/
def addLabelOnce (labels : List String) (lbl : String) : List String :=
  if lbl ∈ labels then labels else labels ++ [lbl]

/-- One step of the `uniqueMessagesMap` update: a fresh key is appended with
the sample's sender and a singleton label set; an existing key keeps its
sender and gains the label. -/
def insertSample (acc : List UniqueMessageEntry) (key sender lbl : String) :
    List UniqueMessageEntry :=
  match acc with
  | [] => [⟨key, sender, [lbl]⟩]
  | e :: es =>
    if e.id = key then { e with fields := addLabelOnce e.fields lbl } :: es
    else e :: insertSample es key sender lbl

/-- The single pass over the parsed samples (lines 540-559): the first two
underscore-separated components of a sample's id form its message identity;
samples whose id has fewer than two components are ignored. -/
def summarizeGo (acc : List UniqueMessageEntry) :
    List ParsedLogMessage → List UniqueMessageEntry
  | [] => acc
  | message :: rest =>
    let parts := jsSplit message.id "_"
    if parts.length ≥ 2 then
      let messageId := parts.headD "" ++ "_" ++ parts.getD 1 ""
      summarizeGo (insertSample acc messageId message.sender message.label) rest
    else summarizeGo acc rest

/-- The catalog of unique message identities built from a sample list. -/
def summarize (parsed : List ParsedLogMessage) : List UniqueMessageEntry :=
  summarizeGo [] parsed

/-- The `Response` shape. -/
structure Response where
  parsed : List ParsedLogMessage
  unique_messages : List UniqueMessageEntry
deriving DecidableEq, Repr

/-- `parseUDPLogToResponse`: decode the rows, then catalog the samples; the
sample list is returned unchanged alongside the catalog. -/
def parseUDPLogToResponse (cfg : UdpConfig) (tableRows : List LogRow) :
    Response :=
  let parsed := transformUDPLogToTimeSeries cfg tableRows
  ⟨parsed, summarize parsed⟩

/-! ### Shared lemmas -/

/-- `Math.round(x * 1000) / 1000` is the identity on integers. -/
theorem roundTo3_intCast (n : Int) : roundTo3 (n : ℚ) = (n : ℚ) := by
  unfold roundTo3 jsRound
  have : ((n : ℚ) * 1000 + 1 / 2) = (n * 1000 : Int) + (1 / 2 : ℚ) := by
    push_cast; ring
  rw [this, Int.floor_int_add]
  norm_num

/-- Skipping-row step of the row loop. -/
theorem transformGo_cons_skip (cfg : UdpConfig) (row : LogRow)
    (rest : List LogRow) (buf : Buffer)
    (h : row.log.length > MAX_UDP_MESSAGE_LENGTH ∨
      row.log.length < UDP_HEADER_LENGTH) :
    transformGo cfg (row :: rest) buf = transformGo cfg rest buf := by
  simp only [transformGo, if_pos h]

/-- Decoding-row step of the row loop. -/
theorem transformGo_cons_take (cfg : UdpConfig) (row : LogRow)
    (rest : List LogRow) (buf : Buffer)
    (h : ¬(row.log.length > MAX_UDP_MESSAGE_LENGTH ∨
      row.log.length < UDP_HEADER_LENGTH)) :
    transformGo cfg (row :: rest) buf =
      processRow cfg (writeRow buf row.log) row ++
        transformGo cfg rest (writeRow buf row.log) := by
  simp only [transformGo, if_neg h]

/-- The row loop splits over list append, the buffer threading through. -/
theorem transformGo_append (cfg : UdpConfig) (xs ys : List LogRow)
    (buf : Buffer) :
    transformGo cfg (xs ++ ys) buf =
      transformGo cfg xs buf ++ transformGo cfg ys (runBuffer xs buf) := by
  induction xs generalizing buf with
  | nil => simp [transformGo, runBuffer]
  | cons row rest ih =>
    by_cases h : row.log.length > MAX_UDP_MESSAGE_LENGTH ∨
        row.log.length < UDP_HEADER_LENGTH
    · rw [List.cons_append, transformGo_cons_skip cfg row _ buf h,
        transformGo_cons_skip cfg row rest buf h, ih]
      simp [runBuffer, h]
    · rw [List.cons_append, transformGo_cons_take cfg row _ buf h,
        transformGo_cons_take cfg row rest buf h, ih]
      simp [runBuffer, h]

/-! ### Witness fixtures: a small concrete descriptor tree and rows -/

/-- A u32 scalar field spanning payload offsets 16..19. -/
def wField32 : UdpField :=
  { label := "Flow", bytes := [16, 17, 18, 19], type := some .uint32_t,
    unit := "mV" }

def wPrefixEntry : PrefixEntry := ⟨"p", "d", [wField32]⟩

def wMessageEntry : MessageEntry := ⟨"m", [wField32]⟩

/-- A tree whose `Other` section matches message-identifier high byte 0. -/
def wOtherCfg : UdpConfig :=
  ⟨⟨[], []⟩, ⟨[], []⟩, ⟨[("0", wPrefixEntry)], []⟩⟩

/-- A section carrying both a matching prefix entry and a matching exact
entry for identifier 2 (high byte 0). -/
def wBothSection : MessageSection :=
  ⟨[("0", wPrefixEntry)], [("2", wMessageEntry)]⟩

/-- A 36-byte row from unknown device 7, message identifier 2. -/
def wRowUnknownDevice : LogRow :=
  ⟨3, [7, 0, 0, 0, 0, 0, 2, 0, 0, 0, 0, 0, 0, 0, 0, 0, 5, 0, 0, 0] ++
    List.replicate 16 0⟩

def emptyCfg : UdpConfig := ⟨⟨[], []⟩, ⟨[], []⟩, ⟨[], []⟩⟩

def wShortRow : LogRow := ⟨0, [1, 2, 3]⟩

/-! ### C2 — prefix precedence in message resolution -/

/-- C2: for every packet the prefix lookup keyed by the message identifier's
high byte is attempted first; when it matches, that entry is the descriptor
used and the reported identity is the family name joined by a colon to the
hex rendering of the raw identifier; the exact decimal-identifier lookup in
the `Messages` table is consulted only when no prefix entry matches, even if
entries exist in both tables. -/
theorem prefix_precedence (configSection : MessageSection) (messageIdLE : Nat)
    (deviceName messageIdHex : String) :
    (∀ p, configSection.Prefixes.lookup (toString (messageIdLE / 256 % 256)) =
        some p →
      resolveMessage configSection messageIdLE deviceName messageIdHex =
        some (.ofPrefixEntry p, deviceName ++ ":" ++ messageIdHex)) ∧
    (configSection.Prefixes.lookup (toString (messageIdLE / 256 % 256)) =
        none →
      resolveMessage configSection messageIdLE deviceName messageIdHex =
        (configSection.Messages.lookup (toString messageIdLE)).map
          (fun m => (.ofMessageEntry m, toString messageIdLE))) := by
  constructor
  · intro p hp
    simp [resolveMessage, hp]
  · intro hp
    cases hm : configSection.Messages.lookup (toString messageIdLE) <;>
      simp [resolveMessage, hp, hm]

/-- Witness for C2 at a section holding both a prefix entry for high byte 0
and an exact entry for identifier 2: the prefix entry wins. -/
theorem prefix_precedence_witness :
    resolveMessage wBothSection 2 "mower" "0002" =
      some (.ofPrefixEntry wPrefixEntry, "mower" ++ ":" ++ "0002") :=
  (prefix_precedence wBothSection 2 "mower" "0002").1 wPrefixEntry (by decide)

/-! ### C8 — row length bounds -/

/-- C8: a row whose payload is shorter than the 16-byte header or longer than
the 2048-byte maximum contributes no samples and raises nothing, and the
remaining rows of the batch decode exactly as if the row were absent. -/
theorem row_length_bounds (cfg : UdpConfig) (pre post : List LogRow)
    (r : LogRow)
    (h : r.log.length < UDP_HEADER_LENGTH ∨
      r.log.length > MAX_UDP_MESSAGE_LENGTH) :
    transformUDPLogToTimeSeries cfg (pre ++ r :: post) =
      transformUDPLogToTimeSeries cfg (pre ++ post) := by
  unfold transformUDPLogToTimeSeries
  rw [transformGo_append, transformGo_append,
    transformGo_cons_skip cfg r post _ h.symm]

/-- Witness for C8 on a 3-byte row. -/
theorem row_length_bounds_witness :
    transformUDPLogToTimeSeries emptyCfg ([] ++ wShortRow :: []) =
      transformUDPLogToTimeSeries emptyCfg ([] ++ []) :=
  row_length_bounds emptyCfg [] [] wShortRow (Or.inl (by decide))

/-! ### C9 — unknown-device fallback -/

/-- C9: a device identifier with no entry in the device table resolves to
the sentinel family `"invalid"` without failing, the packet is matched
against the `Other` section's descriptors, and such rows can still produce
samples. -/
theorem unknown_device_fallback (cfg : UdpConfig) (deviceId : Nat)
    (h : deviceIdToNameMap.lookup deviceId = none) :
    deviceNameOf deviceId = "invalid" ∧
    sectionFor cfg (deviceNameOf deviceId) = cfg.otherMessages ∧
    ∃ cfg2 : UdpConfig, ∃ row : LogRow,
      deviceIdToNameMap.lookup (headerU16 (writeRow Buffer.empty row.log) 0) =
        none ∧
      transformUDPLogToTimeSeries cfg2 [row] ≠ [] := by
  refine ⟨?_, ?_, wOtherCfg, wRowUnknownDevice, by decide, by decide⟩
  · simp [deviceNameOf, h]
  · simp [deviceNameOf, h, sectionFor]

/-- Witness for C9 at unknown device identifier 7. -/
theorem unknown_device_fallback_witness :
    deviceNameOf 7 = "invalid" :=
  (unknown_device_fallback emptyCfg 7 (by decide)).1

/-! ### C5 — dependent-label resolution -/

/-- C5: with an in-bounds dependency bit, a two-part label `A | B` resolves
to `A` on bit 1 and to `B` on bit 0; a label without the separator is kept
unchanged whatever the bit; an out-of-range dependency location — a byte
offset at or past the message length, or a bit index outside 0..7 — skips
resolution and keeps the original label. -/
theorem dependent_label_resolution (buf : Buffer) (len : Nat) (dep : FieldDep)
    (label A B : String) :
    (jsSplit label " | " = [A, B] →
      (getDependentBit buf len dep = some 1 →
        resolveFinalLabel buf len label (some dep) = A) ∧
      (getDependentBit buf len dep = some 0 →
        resolveFinalLabel buf len label (some dep) = B)) ∧
    ((jsSplit label " | ").length ≠ 2 →
      resolveFinalLabel buf len label (some dep) = label) ∧
    (UDP_HEADER_LENGTH + dep.byte ≥ len ∨ dep.bit < 0 ∨ dep.bit > 7 →
      resolveFinalLabel buf len label (some dep) = label) := by
  refine ⟨fun h2 => ⟨fun hb => ?_, fun hb => ?_⟩, fun hlen => ?_, fun hoob => ?_⟩
  · simp [resolveFinalLabel, hb, h2]
  · simp [resolveFinalLabel, hb, h2]
  · cases hb : getDependentBit buf len dep <;>
      simp [resolveFinalLabel, hb, hlen]
  · have hnone : getDependentBit buf len dep = none := by
      simp only [getDependentBit]
      rw [if_pos hoob]
    simp [resolveFinalLabel, hnone]

/-- A buffer whose payload byte 0 (absolute byte 16) is 1. -/
def wDepBuffer : Buffer := writeRow Buffer.empty (List.replicate 16 0 ++ [1])

/-- Witness for C5: label `"On | Off"` with dependency bit 1 resolves to
`"On"`; with an out-of-range bit index (12) the label is kept unchanged. -/
theorem dependent_label_resolution_witness :
    resolveFinalLabel wDepBuffer 17 "On | Off" (some ⟨0, 0⟩) = "On" ∧
    resolveFinalLabel wDepBuffer 17 "On | Off" (some ⟨0, 12⟩) = "On | Off" :=
  ⟨((dependent_label_resolution wDepBuffer 17 ⟨0, 0⟩ "On | Off" "On" "Off").1
      (by decide)).1 (by decide),
    (dependent_label_resolution wDepBuffer 17 ⟨0, 12⟩ "On | Off" "On"
      "Off").2.2 (Or.inr (Or.inr (by decide)))⟩

/-! ### C7 — per-field failure containment -/

/-- A bit-field byte list with any out-of-bounds offset makes the combining
loop throw, whatever position it starts at. -/
theorem combineBitBytes_oob (buf : Buffer) (len : Nat) :
    ∀ (bytes : List Nat) (i : Nat) (acc : Int),
      (∃ b ∈ bytes, UDP_HEADER_LENGTH + b ≥ len) →
      combineBitBytes buf len bytes i acc = none := by
  intro bytes
  induction bytes with
  | nil =>
    rintro i acc ⟨b, hb, _⟩
    cases hb
  | cons x rest ih =>
    rintro i acc ⟨b, hb, hge⟩
    rcases List.mem_cons.mp hb with rfl | hmem
    · simp [combineBitBytes, if_pos hge]
    · by_cases hx : UDP_HEADER_LENGTH + x ≥ len
      · simp [combineBitBytes, if_pos hx]
      · simp only [combineBitBytes, if_neg hx]
        exact ih _ _ ⟨b, hmem, hge⟩

/-- A field that fails yields no samples at all. -/
theorem fieldSamples_of_bad (buf : Buffer) (len : Nat) (f : UdpField) (ts : ℚ)
    (messageIdStr deviceName messageIdHex : String)
    (h : (f.use_bits = 1 ∧ f.bits.isSome ∧
        ∃ b ∈ f.bytes, UDP_HEADER_LENGTH + b ≥ len) ∨
      (¬(f.use_bits = 1 ∧ f.bits.isSome) ∧ f.type = none)) :
    fieldSamples buf len f ts messageIdStr deviceName messageIdHex = [] := by
  rcases h with ⟨hu, hbits, hoob⟩ | ⟨hnot, htype⟩
  · rcases Option.isSome_iff_exists.mp hbits with ⟨bcs, hbcs⟩
    simp only [fieldSamples, if_pos hu, hbcs]
    simp [bitFieldSamples, combineBitBytes_oob buf len f.bytes 0 0 hoob]
  · by_cases hu : f.use_bits = 1
    · have hbits : f.bits = none := by
        cases hb : f.bits with
        | none => rfl
        | some bcs => exact absurd ⟨hu, by simp [hb]⟩ hnot
      simp [fieldSamples, if_pos hu, hbits, scalarFieldSamples, htype]
    · simp [fieldSamples, if_neg hu, scalarFieldSamples, htype]

/-- C7: a field whose decode hits an offset or type inconsistency (an
out-of-bounds bit-packed byte offset, or a null scalar type) yields no
samples, and the sibling fields of the row decode exactly as if the failing
field were absent; nothing is raised (every decode function is total). -/
theorem per_field_failure_containment (buf : Buffer) (len : Nat)
    (fs₁ fs₂ : List UdpField) (f : UdpField) (ts : ℚ)
    (messageIdStr deviceName messageIdHex : String)
    (h : (f.use_bits = 1 ∧ f.bits.isSome ∧
        ∃ b ∈ f.bytes, UDP_HEADER_LENGTH + b ≥ len) ∨
      (¬(f.use_bits = 1 ∧ f.bits.isSome) ∧ f.type = none)) :
    fieldSamples buf len f ts messageIdStr deviceName messageIdHex = [] ∧
    parseFieldsFromConfig buf len (fs₁ ++ f :: fs₂) ts messageIdStr deviceName
        messageIdHex =
      parseFieldsFromConfig buf len fs₁ ts messageIdStr deviceName
          messageIdHex ++
        parseFieldsFromConfig buf len fs₂ ts messageIdStr deviceName
          messageIdHex := by
  have hz := fieldSamples_of_bad buf len f ts messageIdStr deviceName
    messageIdHex h
  refine ⟨hz, ?_⟩
  simp [parseFieldsFromConfig, hz]

/-- A bit-packed field whose single byte offset 30 lies outside a 36-byte
row (absolute offset 46 ≥ 36). -/
def wBadBitField : UdpField :=
  { label := "Bad", bytes := [30], type := none, unit := "",
    bits := some [⟨"b0", 0, 1⟩], use_bits := 1 }

/-- Witness for C7: the failing field vanishes while its siblings decode. -/
theorem per_field_failure_containment_witness :
    fieldSamples wDepBuffer 36 wBadBitField 0 "m" "d" "h" = [] ∧
    parseFieldsFromConfig wDepBuffer 36 ([wField32] ++ wBadBitField :: [wField32])
        0 "m" "d" "h" =
      parseFieldsFromConfig wDepBuffer 36 [wField32] 0 "m" "d" "h" ++
        parseFieldsFromConfig wDepBuffer 36 [wField32] 0 "m" "d" "h" :=
  per_field_failure_containment wDepBuffer 36 [wField32] [wField32]
    wBadBitField 0 "m" "d" "h"
    (Or.inl ⟨by decide, by decide, 30, by decide, by decide⟩)

/-! ### C3 — order of multiplier and rounding on the scalar path

The source rounds inside `getNumericValueFromBytes` (each branch applies
`Math.round(x * 1000) / 1000` to the freshly decoded value) and then, back in
`parseFieldsFromConfig`, multiplies by the multiplier with no further
rounding — the opposite order from the claim. -/

/-- `getNumericValueFromBytes` is exactly the unrounded little-endian decode
followed by round-to-three-places. -/
theorem getNumericValueFromBytes_eq_round (buf : Buffer) (offs : List Nat)
    (dt : DataType) :
    getNumericValueFromBytes buf offs dt =
      (rawScalarValue buf offs dt).map roundTo3 := by
  cases dt <;>
    simp [getNumericValueFromBytes, rawScalarValue, Option.map_map,
      Function.comp_def]

/-- Evaluation of the scalar branch with an in-bounds layout: the emitted
value is `roundTo3 rawValue * multiplier` (for multiplier exactly 1.0 the
scaling branch is skipped, which agrees with multiplying by 1). -/
theorem scalarFieldSamples_eval (buf : Buffer) (len : Nat)
    (f : UdpField) (finalLabel : String) (ts : ℚ)
    (deviceName messageIdHex : String) (dt : DataType) (r : ℚ)
    (hdt : f.type = some dt) (hbne : f.bytes ≠ [])
    (hguard : ¬((f.bytes.map (fun idx => UDP_HEADER_LENGTH + idx)).headD 0 +
        f.bytes.length > len ∨
      (f.bytes.map (fun idx => UDP_HEADER_LENGTH + idx)).any
        (fun offset => offset ≥ len)))
    (hraw : rawScalarValue buf
      (f.bytes.map (fun idx => UDP_HEADER_LENGTH + idx)) dt = some r) :
    scalarFieldSamples buf len f finalLabel ts deviceName messageIdHex =
      [{ label := finalLabel
         unit := f.unit
         isEnum := decide (f.use_enum = 1) && f.enum.isSome
         series := [(ts, roundTo3 r * f.multiplier)]
         id := deviceName ++ "_" ++ messageIdHex ++ "_" ++ finalLabel
         sender := deviceName }] := by
  simp only [scalarFieldSamples, hdt, if_neg hbne, if_neg hguard,
    getNumericValueFromBytes_eq_round, hraw, Option.map_some']
  by_cases hm : f.multiplier = 1
  · simp [hm]
  · simp [hm]

/-- C3 (amended): on the scalar path with an in-bounds layout, the decoder
first rounds the decoded raw value to three decimal places (inside
`getNumericValueFromBytes`) and then applies the multiplier, with no rounding
after it: the emitted value is `roundTo3 rawValue * multiplier`, and a
multiplier of exactly 1.0 is a no-op. The claim's order — multiply first and
round the post-multiplier value — does not hold; see the counterexample. -/
theorem scalar_round_before_multiplier (buf : Buffer) (len : Nat)
    (f : UdpField) (finalLabel : String) (ts : ℚ)
    (deviceName messageIdHex : String) (dt : DataType) (r : ℚ)
    (hdt : f.type = some dt) (hbne : f.bytes ≠ [])
    (hguard : ¬((f.bytes.map (fun idx => UDP_HEADER_LENGTH + idx)).headD 0 +
        f.bytes.length > len ∨
      (f.bytes.map (fun idx => UDP_HEADER_LENGTH + idx)).any
        (fun offset => offset ≥ len)))
    (hraw : rawScalarValue buf
      (f.bytes.map (fun idx => UDP_HEADER_LENGTH + idx)) dt = some r) :
    scalarFieldSamples buf len f finalLabel ts deviceName messageIdHex =
      [{ label := finalLabel
         unit := f.unit
         isEnum := decide (f.use_enum = 1) && f.enum.isSome
         series := [(ts, roundTo3 r * f.multiplier)]
         id := deviceName ++ "_" ++ messageIdHex ++ "_" ++ finalLabel
         sender := deviceName }] :=
  scalarFieldSamples_eval buf len f finalLabel ts deviceName messageIdHex dt r
    hdt hbne hguard hraw

/-- A u8 field at payload offset 0 with multiplier 1/10000. -/
def wTinyMultField : UdpField :=
  { label := "X", bytes := [0], type := some .uint8_t, unit := "",
    multiplier := 1 / 10000 }

/-- Counterexample to C3 as stated: with raw value 1 and multiplier 1/10000
the decoder emits 1/10000, but rounding the post-multiplier value to three
decimal places would give 0. -/
theorem scalar_round_order_counterexample :
    (fieldSamples wDepBuffer 17 wTinyMultField 0 "m" "d" "h").map
        (fun s => s.series) = [[(0, 1 / 10000)]] ∧
    roundTo3 ((1 : ℚ) * (1 / 10000)) = 0 ∧ (1 / 10000 : ℚ) ≠ 0 := by
  have hf : fieldSamples wDepBuffer 17 wTinyMultField 0 "m" "d" "h" =
      scalarFieldSamples wDepBuffer 17 wTinyMultField "X" 0 "d" "h" := by
    simp [fieldSamples, wTinyMultField, resolveFinalLabel]
  have he := scalarFieldSamples_eval wDepBuffer 17 wTinyMultField "X" 0 "d" "h"
    .uint8_t 1 (by decide) (by decide) (by decide) (by decide)
  have hr1 : roundTo3 (1 : ℚ) = 1 := by simpa using roundTo3_intCast 1
  refine ⟨?_, ?_, by norm_num⟩
  · rw [hf, he]
    simp only [List.map_cons, List.map_nil]
    rw [hr1]
    norm_num [wTinyMultField]
  · unfold roundTo3 jsRound
    have h35 : ((1 : ℚ) * (1 / 10000)) * 1000 + 1 / 2 = 3 / 5 := by norm_num
    rw [h35]
    have hfl : ⌊(3 / 5 : ℚ)⌋ = 0 := by
      rw [Int.floor_eq_zero_iff, Set.mem_Ico]
      constructor <;> norm_num
    rw [hfl]
    norm_num

/-- Witness for C3's amended theorem on the same concrete field. -/
theorem scalar_round_before_multiplier_witness :
    scalarFieldSamples wDepBuffer 17 wTinyMultField "X" 0 "d" "h" =
      [{ label := "X"
         unit := ""
         isEnum := false
         series := [(0, roundTo3 1 * wTinyMultField.multiplier)]
         id := "d" ++ "_" ++ "h" ++ "_" ++ "X"
         sender := "d" }] :=
  scalar_round_before_multiplier wDepBuffer 17 wTinyMultField "X" 0 "d" "h"
    .uint8_t 1 (by decide) (by decide) (by decide) (by decide)

/-! ### C10 — aggregation merging -/

/-- Entry identities are pairwise distinct. -/
abbrev KeysDistinct (acc : List UniqueMessageEntry) : Prop :=
  acc.Pairwise (fun a b => a.id ≠ b.id)

theorem mem_addLabelOnce_self (labels : List String) (lbl : String) :
    lbl ∈ addLabelOnce labels lbl := by
  unfold addLabelOnce
  by_cases h : lbl ∈ labels <;> simp [h]

theorem mem_addLabelOnce_of_mem (labels : List String) (lbl l' : String)
    (h : l' ∈ labels) : l' ∈ addLabelOnce labels lbl := by
  unfold addLabelOnce
  by_cases hm : lbl ∈ labels <;> simp [hm, h]

/-- `insertSample` keeps the identity list, only possibly appending the new
key. -/
theorem insertSample_ids (acc : List UniqueMessageEntry)
    (k snd lbl : String) :
    (insertSample acc k snd lbl).map (fun e => e.id) =
      if k ∈ acc.map (fun e => e.id) then acc.map (fun e => e.id)
      else acc.map (fun e => e.id) ++ [k] := by
  induction acc with
  | nil => simp [insertSample]
  | cons e es ih =>
    simp only [insertSample]
    by_cases he : e.id = k
    · rw [if_pos he]
      have hm : k ∈ (e :: es).map (fun e => e.id) := by
        rw [List.map_cons, he]
        exact List.mem_cons_self _ _
      rw [if_pos hm]
      simp
    · rw [if_neg he]
      have hne : k ≠ e.id := fun h => he h.symm
      by_cases hm : k ∈ es.map (fun e => e.id)
      · have hm' : k ∈ (e :: es).map (fun e => e.id) := by
          rw [List.map_cons]
          exact List.mem_cons_of_mem _ hm
        rw [if_pos hm']
        simp only [List.map_cons, ih, if_pos hm]
      · have hm' : k ∉ (e :: es).map (fun e => e.id) := by
          rw [List.map_cons]
          intro hc
          rcases List.mem_cons.mp hc with h | h
          · exact hne h
          · exact hm h
        rw [if_neg hm']
        simp only [List.map_cons, ih, if_neg hm]
        simp

/-- `insertSample` preserves distinctness of identities. -/
theorem insertSample_keysDistinct (acc : List UniqueMessageEntry)
    (k snd lbl : String) (h : KeysDistinct acc) :
    KeysDistinct (insertSample acc k snd lbl) := by
  induction acc with
  | nil => simp [insertSample, KeysDistinct]
  | cons e es ih =>
    rcases List.pairwise_cons.mp h with ⟨hhead, htail⟩
    simp only [insertSample]
    by_cases he : e.id = k
    · rw [if_pos he]
      refine List.pairwise_cons.mpr ⟨?_, htail⟩
      intro e' he'
      exact hhead e' he'
    · rw [if_neg he]
      refine List.pairwise_cons.mpr ⟨?_, ih htail⟩
      intro e' he'
      have : e'.id ∈ (insertSample es k snd lbl).map (fun e => e.id) :=
        List.mem_map_of_mem _ he'
      rw [insertSample_ids] at this
      by_cases hm : k ∈ es.map (fun e => e.id)
      · rw [if_pos hm] at this
        rcases List.mem_map.mp this with ⟨e'', he''mem, he''eq⟩
        rw [← he''eq]
        exact hhead e'' he''mem
      · rw [if_neg hm] at this
        rcases List.mem_append.mp this with hin | hk
        · rcases List.mem_map.mp hin with ⟨e'', he''mem, he''eq⟩
          rw [← he''eq]
          exact hhead e'' he''mem
        · simp only [List.mem_singleton] at hk
          rw [hk]
          exact he

/-- The inserted key's entry holds the inserted label. -/
theorem insertSample_mem_self (acc : List UniqueMessageEntry)
    (k snd lbl : String) :
    ∃ e ∈ insertSample acc k snd lbl, e.id = k ∧ lbl ∈ e.fields := by
  induction acc with
  | nil => exact ⟨⟨k, snd, [lbl]⟩, by simp [insertSample]⟩
  | cons e es ih =>
    by_cases he : e.id = k
    · refine ⟨{ e with fields := addLabelOnce e.fields lbl }, ?_, he, ?_⟩
      · simp [insertSample, he]
      · exact mem_addLabelOnce_self e.fields lbl
    · rcases ih with ⟨e', he'mem, he'⟩
      exact ⟨e', by simp [insertSample, he, he'mem], he'⟩

/-- Labels already catalogued survive an insertion. -/
theorem insertSample_mem_mono (acc : List UniqueMessageEntry)
    (k snd lbl k' l' : String)
    (h : ∃ e ∈ acc, e.id = k' ∧ l' ∈ e.fields) :
    ∃ e ∈ insertSample acc k snd lbl, e.id = k' ∧ l' ∈ e.fields := by
  induction acc with
  | nil => simp at h
  | cons e es ih =>
    rcases h with ⟨e₀, he₀mem, he₀id, he₀lbl⟩
    rcases List.mem_cons.mp he₀mem with rfl | htail
    · by_cases he : e₀.id = k
      · refine ⟨{ e₀ with fields := addLabelOnce e₀.fields lbl }, ?_, he₀id, ?_⟩
        · simp [insertSample, he]
        · exact mem_addLabelOnce_of_mem e₀.fields lbl l' he₀lbl
      · exact ⟨e₀, by simp [insertSample, he], he₀id, he₀lbl⟩
    · by_cases he : e.id = k
      · exact ⟨e₀, by simp [insertSample, he, htail], he₀id, he₀lbl⟩
      · rcases ih ⟨e₀, htail, he₀id, he₀lbl⟩ with ⟨e', he'mem, he'⟩
        exact ⟨e', by simp [insertSample, he, he'mem], he'⟩

/-- The single catalog pass preserves distinctness of identities. -/
theorem summarizeGo_keysDistinct (ms : List ParsedLogMessage) :
    ∀ acc, KeysDistinct acc → KeysDistinct (summarizeGo acc ms) := by
  induction ms with
  | nil => intro acc h; simpa [summarizeGo] using h
  | cons m rest ih =>
    intro acc h
    by_cases hl : (jsSplit m.id "_").length ≥ 2
    · simp only [summarizeGo, if_pos hl]
      exact ih _ (insertSample_keysDistinct acc _ m.sender m.label h)
    · simp only [summarizeGo, if_neg hl]
      exact ih _ h

/-- Catalogued labels survive the rest of the pass. -/
theorem summarizeGo_mem_mono (ms : List ParsedLogMessage) (k' l' : String) :
    ∀ acc, (∃ e ∈ acc, e.id = k' ∧ l' ∈ e.fields) →
      ∃ e ∈ summarizeGo acc ms, e.id = k' ∧ l' ∈ e.fields := by
  induction ms with
  | nil => intro acc h; simpa [summarizeGo] using h
  | cons m rest ih =>
    intro acc h
    by_cases hl : (jsSplit m.id "_").length ≥ 2
    · simp only [summarizeGo, if_pos hl]
      exact ih _ (insertSample_mem_mono acc _ m.sender m.label k' l' h)
    · simp only [summarizeGo, if_neg hl]
      exact ih _ h

/-- Every sample with a two-component identity lands in the catalog under
its message identity, carrying its label. -/
theorem summarizeGo_mem_of_sample (ms : List ParsedLogMessage)
    (m : ParsedLogMessage) (hm : m ∈ ms)
    (hl : (jsSplit m.id "_").length ≥ 2) :
    ∀ acc, ∃ e ∈ summarizeGo acc ms,
      e.id = (jsSplit m.id "_").headD "" ++ "_" ++ (jsSplit m.id "_").getD 1 "" ∧
      m.label ∈ e.fields := by
  induction ms with
  | nil => cases hm
  | cons m' rest ih =>
    intro acc
    rcases List.mem_cons.mp hm with rfl | htail
    · simp only [summarizeGo, if_pos hl]
      exact summarizeGo_mem_mono rest _ _ _
        (insertSample_mem_self acc _ m.sender m.label)
    · by_cases hl' : (jsSplit m'.id "_").length ≥ 2
      · simp only [summarizeGo, if_pos hl']
        exact ih htail _
      · simp only [summarizeGo, if_neg hl']
        exact ih htail _

/-- Two catalog entries with the same identity are the same entry when
identities are distinct. -/
theorem entry_eq_of_same_id (l : List UniqueMessageEntry)
    (hd : KeysDistinct l) (e₁ e₂ : UniqueMessageEntry)
    (h₁ : e₁ ∈ l) (h₂ : e₂ ∈ l) (hid : e₁.id = e₂.id) : e₁ = e₂ := by
  induction l with
  | nil => cases h₁
  | cons a as ih =>
    rcases List.pairwise_cons.mp hd with ⟨hhead, htail⟩
    rcases List.mem_cons.mp h₁ with rfl | h₁t
    · rcases List.mem_cons.mp h₂ with rfl | h₂t
      · rfl
      · exact absurd hid (hhead e₂ h₂t)
    · rcases List.mem_cons.mp h₂ with rfl | h₂t
      · exact absurd hid.symm (hhead e₁ h₁t)
      · exact ih htail h₁t h₂t

/-- In a list with distinct identities, a present identity is counted
exactly once. -/
theorem countP_id_eq_one (l : List UniqueMessageEntry) (k : String)
    (hd : KeysDistinct l) (hmem : ∃ e ∈ l, e.id = k) :
    l.countP (fun e => decide (e.id = k)) = 1 := by
  induction l with
  | nil => simp at hmem
  | cons a as ih =>
    rcases List.pairwise_cons.mp hd with ⟨hhead, htail⟩
    rcases hmem with ⟨e, hemem, heid⟩
    rcases List.mem_cons.mp hemem with rfl | ht
    · have hz : as.countP (fun e' => decide (e'.id = k)) = 0 := by
        rw [List.countP_eq_zero]
        intro e' he'
        simp only [decide_eq_true_eq]
        rw [← heid]
        exact (hhead e' he').symm
      simp [List.countP_cons, heid, hz]
    · have hane : a.id ≠ k := by
        rw [← heid]
        exact hhead e ht
      have := ih htail ⟨e, ht, heid⟩
      simp [List.countP_cons, hane, this]

/-- C10: two samples sharing the device-family and message-identity
components of their composite identity key, with different field labels,
produce exactly one catalog entry for that identity, whose label set carries
both labels; the sample list itself is returned unchanged alongside the
catalog. -/
theorem aggregation_merging (samples : List ParsedLogMessage)
    (s₁ s₂ : ParsedLogMessage) (k : String)
    (h₁ : s₁ ∈ samples) (h₂ : s₂ ∈ samples)
    (hl₁ : (jsSplit s₁.id "_").length ≥ 2)
    (hl₂ : (jsSplit s₂.id "_").length ≥ 2)
    (hk₁ : (jsSplit s₁.id "_").headD "" ++ "_" ++ (jsSplit s₁.id "_").getD 1 ""
      = k)
    (hk₂ : (jsSplit s₂.id "_").headD "" ++ "_" ++ (jsSplit s₂.id "_").getD 1 ""
      = k)
    (_hdiff : s₁.label ≠ s₂.label) :
    (∃ e ∈ summarize samples,
      e.id = k ∧ s₁.label ∈ e.fields ∧ s₂.label ∈ e.fields) ∧
    (summarize samples).countP (fun e => decide (e.id = k)) = 1 ∧
    ∀ (cfg : UdpConfig) (rows : List LogRow),
      (parseUDPLogToResponse cfg rows).parsed =
        transformUDPLogToTimeSeries cfg rows := by
  have hd : KeysDistinct (summarize samples) :=
    summarizeGo_keysDistinct samples [] (by simp [KeysDistinct])
  rcases summarizeGo_mem_of_sample samples s₁ h₁ hl₁ [] with ⟨e₁, he₁mem, he₁id, he₁lbl⟩
  rcases summarizeGo_mem_of_sample samples s₂ h₂ hl₂ [] with ⟨e₂, he₂mem, he₂id, he₂lbl⟩
  rw [hk₁] at he₁id
  rw [hk₂] at he₂id
  have heq : e₁ = e₂ :=
    entry_eq_of_same_id _ hd e₁ e₂ he₁mem he₂mem (he₁id.trans he₂id.symm)
  refine ⟨⟨e₁, he₁mem, he₁id, he₁lbl, ?_⟩, ?_, fun cfg rows => rfl⟩
  · rw [heq]
    exact he₂lbl
  · exact countP_id_eq_one _ k hd ⟨e₁, he₁mem, he₁id⟩

/-- Two samples of the same dock message with different labels. -/
def wSampleA : ParsedLogMessage :=
  ⟨"dock_0703_A", "A", "", false, [], "dock"⟩

def wSampleB : ParsedLogMessage :=
  ⟨"dock_0703_B", "B", "", false, [], "dock"⟩

/-- Witness for C10 on two concrete samples of message `dock_0703`. -/
theorem aggregation_merging_witness :
    (∃ e ∈ summarize [wSampleA, wSampleB],
      e.id = "dock_0703" ∧ wSampleA.label ∈ e.fields ∧
        wSampleB.label ∈ e.fields) ∧
    (summarize [wSampleA, wSampleB]).countP
      (fun e => decide (e.id = "dock_0703")) = 1 ∧
    ∀ (cfg : UdpConfig) (rows : List LogRow),
      (parseUDPLogToResponse cfg rows).parsed =
        transformUDPLogToTimeSeries cfg rows :=
  aggregation_merging [wSampleA, wSampleB] wSampleA wSampleB "dock_0703"
    (by decide) (by decide) (by decide) (by decide) (by decide) (by decide)
    (by decide)

/-! ### C1 — end-to-end scalar decode -/

/-- `roundTo3` is the identity on naturals. -/
theorem roundTo3_natCast (n : Nat) : roundTo3 (n : ℚ) = (n : ℚ) := by
  simpa using roundTo3_intCast n

/-- Reading a copied-in row byte. -/
theorem byteAt_writeRow (buf : Buffer) (l : List Nat) (i : Nat)
    (hi : i < l.length) (hb : ∀ b ∈ l, b < 256) :
    byteAt (writeRow buf l) i = l.getD i 0 := by
  unfold byteAt writeRow
  rw [if_pos hi]
  refine Nat.mod_eq_of_lt (hb _ ?_)
  rw [List.getD_eq_getElem l 0 hi]
  exact List.getElem_mem hi

/-- C1: a length-valid row with device identifier 1 (bytes `[1, 0]` at
offset 0) and message identifier 2 (bytes `[2, 0]` at offsets 6..7), whose
resolved descriptor holds exactly one u32 field over payload offsets 16..19
with multiplier 1 and no dependency, contributes exactly one sample: its
value is the little-endian 32-bit integer at absolute offset 32 and its
label is the descriptor's field label. -/
theorem end_to_end_u32 (cfg : UdpConfig) (row : LogRow) (buf : Buffer)
    (f : UdpField) (cm : ConfigMessage) (mstr : String)
    (hlen1 : 36 ≤ row.log.length)
    (hlen2 : row.log.length ≤ MAX_UDP_MESSAGE_LENGTH)
    (hbytes : ∀ b ∈ row.log, b < 256)
    (hd0 : row.log.getD 0 0 = 1) (hd1 : row.log.getD 1 0 = 0)
    (hm6 : row.log.getD 6 0 = 2) (hm7 : row.log.getD 7 0 = 0)
    (hres : resolveMessage cfg.otherMessages 2 "mower" "0002" =
      some (cm, mstr))
    (hfields : cm.Fields = [f])
    (htype : f.type = some .uint32_t)
    (hfb : f.bytes = [16, 17, 18, 19])
    (hmult : f.multiplier = 1)
    (hdep : f.dependent_on = none)
    (hub : f.use_bits ≠ 1) :
    transformGo cfg [row] buf =
      [{ label := f.label
         unit := f.unit
         isEnum := decide (f.use_enum = 1) && f.enum.isSome
         series := [(row.date,
           ((row.log.getD 32 0 + 256 * row.log.getD 33 0 +
             65536 * row.log.getD 34 0 +
             16777216 * row.log.getD 35 0 : Nat) : ℚ))]
         id := "mower" ++ "_" ++ "0002" ++ "_" ++ f.label
         sender := "mower" }] := by
  have hguard : ¬(row.log.length > MAX_UDP_MESSAGE_LENGTH ∨
      row.log.length < UDP_HEADER_LENGTH) := by
    push_neg
    refine ⟨hlen2, ?_⟩
    unfold UDP_HEADER_LENGTH
    omega
  rw [transformGo_cons_take cfg row [] buf hguard]
  set bufR := writeRow buf row.log with hbufR
  have hbyte : ∀ i, i < row.log.length → byteAt bufR i = row.log.getD i 0 :=
    fun i hi => byteAt_writeRow buf row.log i hi hbytes
  have hdev : headerU16 bufR 0 = 1 := by
    unfold headerU16
    rw [hbyte 0 (by omega), hbyte 1 (by omega), hd0, hd1]
  have hmsg : headerU16 bufR 6 = 2 := by
    unfold headerU16
    rw [hbyte 6 (by omega), hbyte 7 (by omega), hm6, hm7]
  have hhex : getMessageIdHex bufR = "0002" := by
    unfold getMessageIdHex
    rw [hbyte 7 (by omega), hbyte 6 (by omega), hm7, hm6]
    rfl
  have hname : deviceNameOf 1 = "mower" := by decide
  have hsec : sectionFor cfg "mower" = cfg.otherMessages := rfl
  simp only [processRow, hdev, hmsg, hhex, hname, hsec, hres,
    parseFieldsFromConfig, hfields, List.map_cons, List.map_nil,
    List.flatten_cons, List.flatten_nil, List.append_nil]
  have hlabel : resolveFinalLabel bufR row.log.length f.label f.dependent_on =
      f.label := by
    rw [hdep]
    rfl
  simp only [fieldSamples, if_neg hub, hlabel]
  have hraw : rawScalarValue bufR
      (f.bytes.map (fun idx => UDP_HEADER_LENGTH + idx)) .uint32_t =
      some ((row.log.getD 32 0 + 256 * row.log.getD 33 0 +
        65536 * row.log.getD 34 0 + 16777216 * row.log.getD 35 0 : Nat) : ℚ) := by
    rw [hfb]
    show (readU32 bufR 32).map _ = _
    unfold readU32
    rw [if_pos (by norm_num [MAX_UDP_MESSAGE_LENGTH])]
    rw [hbyte 32 (by omega), hbyte 33 (by omega), hbyte 34 (by omega),
      hbyte 35 (by omega)]
    rfl
  have hbne : f.bytes ≠ [] := by rw [hfb]; simp
  have hg : ¬((f.bytes.map (fun idx => UDP_HEADER_LENGTH + idx)).headD 0 +
      f.bytes.length > row.log.length ∨
    (f.bytes.map (fun idx => UDP_HEADER_LENGTH + idx)).any
      (fun offset => offset ≥ row.log.length)) := by
    rw [hfb]
    rintro (h | h)
    · unfold UDP_HEADER_LENGTH at h
      simp at h
      omega
    · unfold UDP_HEADER_LENGTH at h
      simp at h
      omega
  rw [scalarFieldSamples_eval bufR row.log.length f f.label row.date "mower"
    "0002" .uint32_t _ htype hbne hg hraw]
  rw [hmult, roundTo3_natCast, mul_one]
  simp [transformGo]

/-- A 36-byte row: device 1 (mower), message identifier 2, little-endian
u32 payload `[9, 0, 0, 1]` at absolute offsets 32..35. -/
def wRowC1 : LogRow :=
  ⟨7, [1, 0, 0, 0, 0, 0, 2, 0, 0, 0, 0, 0, 0, 0, 0, 0,
       0, 0, 0, 0, 0, 0, 0, 0, 0, 0, 0, 0, 0, 0, 0, 0,
       9, 0, 0, 1]⟩

/-- Witness for C1 on a concrete row and descriptor tree: the decoded value
is 9 + 2^24 = 16777225. -/
theorem end_to_end_u32_witness :
    transformGo wOtherCfg [wRowC1] Buffer.empty =
      [{ label := wField32.label
         unit := wField32.unit
         isEnum := decide (wField32.use_enum = 1) && wField32.enum.isSome
         series := [(wRowC1.date,
           ((wRowC1.log.getD 32 0 + 256 * wRowC1.log.getD 33 0 +
             65536 * wRowC1.log.getD 34 0 +
             16777216 * wRowC1.log.getD 35 0 : Nat) : ℚ))]
         id := "mower" ++ "_" ++ "0002" ++ "_" ++ wField32.label
         sender := "mower" }] :=
  end_to_end_u32 wOtherCfg wRowC1 Buffer.empty wField32
    (.ofPrefixEntry wPrefixEntry) ("mower" ++ ":" ++ "0002")
    (by decide) (by decide) (by decide) (by decide) (by decide) (by decide)
    (by decide) (by decide) (by decide) (by decide) (by decide) (by decide)
    (by decide) (by decide)

/-! ### C4 — bit-packed field emission

Support lemmas relating the JavaScript 32-bit operator semantics to ideal
arithmetic on the little-endian combined value. -/

/-- The mathematical little-endian combination of the payload bytes at the
given offsets, starting at byte position `i`. -/
def idealCombineFrom (buf : Buffer) : List Nat → Nat → Nat
  | [], _ => 0
  | b :: rest, i =>
    byteAt buf (UDP_HEADER_LENGTH + b) * 2 ^ (8 * i) +
      idealCombineFrom buf rest (i + 1)

/-- The mathematical little-endian combination of the payload bytes at the
given offsets. -/
def idealCombine (buf : Buffer) (bytes : List Nat) : Nat :=
  idealCombineFrom buf bytes 0

theorem byteAt_lt (buf : Buffer) (i : Nat) : byteAt buf i < 256 :=
  Nat.mod_lt _ (by norm_num)

theorem toU32_ofU32 (n : Nat) : toU32 (ofU32 n) = n % 2 ^ 32 := by
  unfold toU32 ofU32
  split <;> omega

theorem toU32_natCast (n : Nat) : toU32 ((n : Nat) : Int) = n % 2 ^ 32 := by
  unfold toU32
  omega

theorem ofU32_lt (n : Nat) (h : n < 2 ^ 31) : ofU32 n = (n : Int) := by
  unfold ofU32
  have hm : n % 2 ^ 32 = n := Nat.mod_eq_of_lt (by omega)
  rw [hm, if_pos h]

/-- Bound on the ideal little-endian combination: all bytes below 256 keep
the combination strictly below the next 8-bit boundary. -/
theorem idealCombineFrom_le (buf : Buffer) :
    ∀ (bytes : List Nat) (i : Nat),
      idealCombineFrom buf bytes i ≤
        2 ^ (8 * (i + bytes.length)) - 2 ^ (8 * i) := by
  intro bytes
  induction bytes with
  | nil =>
    intro i
    simp [idealCombineFrom]
  | cons b rest ih =>
    intro i
    have hb := byteAt_lt buf (UDP_HEADER_LENGTH + b)
    have hr := ih (i + 1)
    simp only [idealCombineFrom, List.length_cons]
    have hP : (2 : Nat) ^ (8 * (i + 1)) = 256 * 2 ^ (8 * i) := by
      rw [show 8 * (i + 1) = 8 + 8 * i by ring, pow_add]
      norm_num
    have hexp : 8 * (i + 1 + rest.length) = 8 * (i + (rest.length + 1)) := by
      ring
    rw [hexp] at hr
    have hx : byteAt buf (UDP_HEADER_LENGTH + b) * 2 ^ (8 * i) ≤
        255 * 2 ^ (8 * i) :=
      Nat.mul_le_mul_right _ (by omega)
    have hPle : (2 : Nat) ^ (8 * (i + 1)) ≤ 2 ^ (8 * (i + (rest.length + 1))) :=
      Nat.pow_le_pow_right (by norm_num) (by omega)
    omega

theorem idealCombine_lt_two_pow_32 (buf : Buffer) (bytes : List Nat)
    (h : bytes.length ≤ 4) : idealCombine buf bytes < 2 ^ 32 := by
  have h1 := idealCombineFrom_le buf bytes 0
  have h2 : (2 : Nat) ^ (8 * (0 + bytes.length)) ≤ 2 ^ 32 :=
    Nat.pow_le_pow_right (by norm_num) (by omega)
  have h3 : (0 : Nat) < 2 ^ (8 * 0) := Nat.two_pow_pos _
  unfold idealCombine
  omega

/-- One step of the combining loop in ideal terms: ORing a byte shifted into
a fresh 8-bit slot is addition. -/
theorem jsOr_shl_byte (A B i : Nat) (hA : A < 2 ^ (8 * i)) (hB : B < 256)
    (hi : i ≤ 3) :
    jsOr (ofU32 A) (jsShl ((B : Nat) : Int) (8 * i)) =
      ofU32 (A + B * 2 ^ (8 * i)) := by
  have h8i : 8 * i % 32 = 8 * i := Nat.mod_eq_of_lt (by omega)
  have hBlt : B % 2 ^ 32 = B := Nat.mod_eq_of_lt (by omega)
  have hshift : B <<< (8 * i) = B * 2 ^ (8 * i) := Nat.shiftLeft_eq B (8 * i)
  have hBs : B * 2 ^ (8 * i) < 2 ^ 32 := by
    have h1 : B * 2 ^ (8 * i) < 256 * 2 ^ (8 * i) :=
      (Nat.mul_lt_mul_right (Nat.two_pow_pos _)).mpr hB
    have h2 : (256 : Nat) * 2 ^ (8 * i) = 2 ^ (8 * i + 8) := by
      rw [pow_add]; ring
    have h3 : (2 : Nat) ^ (8 * i + 8) ≤ 2 ^ 32 :=
      Nat.pow_le_pow_right (by norm_num) (by omega)
    omega
  have hA32 : A % 2 ^ 32 = A := by
    have : (2 : Nat) ^ (8 * i) ≤ 2 ^ 32 :=
      Nat.pow_le_pow_right (by norm_num) (by omega)
    exact Nat.mod_eq_of_lt (by omega)
  unfold jsShl
  rw [toU32_natCast, hBlt, h8i, hshift]
  unfold jsOr
  rw [toU32_ofU32, toU32_ofU32, Nat.mod_eq_of_lt hBs, hA32]
  congr 1
  have hcomm : B * 2 ^ (8 * i) = 2 ^ (8 * i) * B := Nat.mul_comm _ _
  rw [hcomm, Nat.lor_comm, ← Nat.mul_add_lt_is_or hA B]
  omega

/-- The combining loop computes the ideal little-endian combination when at
most four bytes are declared and all offsets are in bounds. -/
theorem combineBitBytes_eval (buf : Buffer) (len : Nat) :
    ∀ (bytes : List Nat) (i : Nat) (A : Nat),
      (∀ b ∈ bytes, UDP_HEADER_LENGTH + b < len) →
      i + bytes.length ≤ 4 →
      A < 2 ^ (8 * i) →
      combineBitBytes buf len bytes i (ofU32 A) =
        some (ofU32 (A + idealCombineFrom buf bytes i)) := by
  intro bytes
  induction bytes with
  | nil =>
    intro i A _ _ _
    simp [combineBitBytes, idealCombineFrom]
  | cons b rest ih =>
    intro i A hin hlen hA
    have hb : UDP_HEADER_LENGTH + b < len := hin b (List.mem_cons_self b rest)
    simp only [combineBitBytes, if_neg (not_le.mpr hb)]
    rw [jsOr_shl_byte A (byteAt buf (UDP_HEADER_LENGTH + b)) i hA
      (byteAt_lt buf _) (by simp at hlen; omega)]
    have hA' : A + byteAt buf (UDP_HEADER_LENGTH + b) * 2 ^ (8 * i) <
        2 ^ (8 * (i + 1)) := by
      have hb256 := byteAt_lt buf (UDP_HEADER_LENGTH + b)
      have h1 : byteAt buf (UDP_HEADER_LENGTH + b) * 2 ^ (8 * i) ≤
          255 * 2 ^ (8 * i) :=
        Nat.mul_le_mul_right _ (by omega)
      have h2 : (2 : Nat) ^ (8 * (i + 1)) = 256 * 2 ^ (8 * i) := by
        rw [show 8 * (i + 1) = 8 + 8 * i by ring, pow_add]
        norm_num
      omega
    rw [ih (i + 1) _ (fun x hx => hin x (List.mem_cons_of_mem b hx))
      (by simp at hlen ⊢; omega) hA']
    simp only [idealCombineFrom]
    congr 2
    omega

/-- The JavaScript mask `(1 << num) - 1` as an unsigned 32-bit value. -/
theorem toU32_mask (Num : Nat) (h1 : 1 ≤ Num) (h31 : Num ≤ 31) :
    toU32 (jsShl 1 Num - 1) = 2 ^ Num - 1 := by
  by_cases h30 : Num ≤ 30
  · unfold jsShl
    have hm : Num % 32 = Num := Nat.mod_eq_of_lt (by omega)
    have ht1 : toU32 1 = 1 := by decide
    rw [ht1, hm]
    have hshift : 1 <<< Num = 2 ^ Num := by
      rw [Nat.shiftLeft_eq, one_mul]
    rw [hshift]
    have hlt31 : (2 : Nat) ^ Num < 2 ^ 31 :=
      Nat.pow_lt_pow_right (by norm_num) (by omega)
    rw [ofU32_lt _ hlt31]
    unfold toU32
    have h1p : (1 : Nat) ≤ 2 ^ Num := Nat.one_le_two_pow
    generalize hP : (2 : Nat) ^ Num = P at h1p hlt31 ⊢
    omega
  · have hN : Num = 31 := by omega
    subst hN
    decide

/-- `getBits` on a non-negatively-combined 32-bit value agrees with the
ideal shift-and-mask extraction when the window fits in 32 bits. -/
theorem getBits_ofU32 (V Start Num : Nat) (hV : V < 2 ^ 32)
    (hSN : Start + Num ≤ 32) (hN1 : 1 ≤ Num) (hN31 : Num ≤ 31) :
    getBits (ofU32 V) Start Num = (((V >>> Start) % 2 ^ Num : Nat) : Int) := by
  have hS31 : Start ≤ 31 := by omega
  have hSm : Start % 32 = Start := Nat.mod_eq_of_lt (by omega)
  have hVm : V % 2 ^ 32 = V := Nat.mod_eq_of_lt hV
  have hshr : V >>> Start = V / 2 ^ Start := Nat.shiftRight_eq_div_pow V Start
  have hmodlt : (V >>> Start) % 2 ^ Num < 2 ^ 31 := by
    have h1 : (V >>> Start) % 2 ^ Num < 2 ^ Num :=
      Nat.mod_lt _ (Nat.pos_pow_of_pos _ (by norm_num))
    have h2 : (2 : Nat) ^ Num ≤ 2 ^ 31 :=
      Nat.pow_le_pow_right (by norm_num) hN31
    omega
  unfold getBits jsShr
  rw [toU32_ofU32, hVm, hSm]
  by_cases hv31 : V < 2 ^ 31
  · rw [if_pos hv31]
    unfold jsAnd
    rw [toU32_mask Num hN1 hN31, toU32_natCast,
      Nat.mod_eq_of_lt (by
        have : V >>> Start ≤ V := by
          rw [hshr]; exact Nat.div_le_self _ _
        omega),
      Nat.and_pow_two_sub_one_eq_mod, ofU32_lt _ hmodlt]
  · rw [if_neg hv31]
    unfold jsAnd
    rw [toU32_mask Num hN1 hN31]
    have hvQ : V >>> Start < 2 ^ (32 - Start) := by
      rw [hshr]
      rw [Nat.div_lt_iff_lt_mul (Nat.pos_pow_of_pos _ (by norm_num))]
      calc V < 2 ^ 32 := hV
      _ = 2 ^ (32 - Start) * 2 ^ Start := by
          rw [← pow_add]
          congr 1
          omega
    have hQ32 : (2 : Nat) ^ (32 - Start) ≤ 2 ^ 32 :=
      Nat.pow_le_pow_right (by norm_num) (by omega)
    have ht : toU32 (((V >>> Start : Nat) : Int) - 2 ^ (32 - Start)) =
        V >>> Start + (2 ^ 32 - 2 ^ (32 - Start)) := by
      unfold toU32
      have hc : ((2 : Int) ^ (32 - Start)) = ((2 ^ (32 - Start) : Nat) : Int) := by
        push_cast
        rfl
      rw [hc]
      generalize hv : V >>> Start = v at hvQ ⊢
      generalize hQ : (2 : Nat) ^ (32 - Start) = Q at hvQ hQ32 ⊢
      omega
    rw [ht]
    have hdvd : (2 : Nat) ^ Num ∣ 2 ^ 32 - 2 ^ (32 - Start) :=
      Nat.dvd_sub' (pow_dvd_pow 2 (by omega)) (pow_dvd_pow 2 (by omega))
    have hz : ((2 : Nat) ^ 32 - 2 ^ (32 - Start)) % 2 ^ Num = 0 :=
      Nat.mod_eq_zero_of_dvd hdvd
    rw [Nat.and_pow_two_sub_one_eq_mod, Nat.add_mod, hz, Nat.add_zero,
      Nat.mod_mod_of_dvd _ dvd_rfl, ofU32_lt _ hmodlt]

/-- C4 (amended): a bit-packed field with in-bounds offsets, at most four
declared bytes, and subfields whose windows fit in 32 bits
(`1 ≤ bitCount ≤ 31`, `startBit + bitCount ≤ 32` — the source extracts with
JavaScript 32-bit operators) yields exactly one sample per declared
bit-subfield, whose value is
`((combined >> startBit) & ((1 << bitCount) - 1)) * multiplier` with
`combined` the little-endian combination of the bytes, and whose label is
the message identity string, an underscore, the field label, an underscore,
and the subfield name (not merely the field label and subfield name as the
claim stated — see the counterexample). -/
theorem bit_packed_field_samples (buf : Buffer) (len : Nat) (f : UdpField)
    (ts : ℚ) (messageIdStr deviceName messageIdHex : String)
    (bcs : List BitDef)
    (hub : f.use_bits = 1) (hbits : f.bits = some bcs)
    (hdep : f.dependent_on = none)
    (hinb : ∀ b ∈ f.bytes, UDP_HEADER_LENGTH + b < len)
    (hlen4 : f.bytes.length ≤ 4)
    (hbc : ∀ bc ∈ bcs, 1 ≤ bc.Num ∧ bc.Num ≤ 31 ∧ bc.Start + bc.Num ≤ 32) :
    fieldSamples buf len f ts messageIdStr deviceName messageIdHex =
      bcs.map (fun bc =>
        { label := messageIdStr ++ "_" ++ f.label ++ "_" ++ bc.Name
          unit := f.unit
          isEnum := false
          series := [(ts,
            ((((idealCombine buf f.bytes >>> bc.Start) &&&
              (2 ^ bc.Num - 1) : Nat)) : ℚ) * f.multiplier)]
          id := deviceName ++ "_" ++ messageIdHex ++ "_" ++ f.label ++ "_" ++
            bc.Name
          sender := deviceName }) := by
  have hlabel : resolveFinalLabel buf len f.label f.dependent_on = f.label := by
    rw [hdep]
    rfl
  simp only [fieldSamples, if_pos hub, hbits, hlabel]
  unfold bitFieldSamples
  have h0 : (0 : Int) = ofU32 0 := by decide
  rw [h0, combineBitBytes_eval buf len f.bytes 0 0 hinb (by omega)
    (by norm_num)]
  simp only [Nat.zero_add]
  apply List.map_congr_left
  intro bc hbcmem
  obtain ⟨h1, h31, hSN⟩ := hbc bc hbcmem
  have hV := idealCombine_lt_two_pow_32 buf f.bytes hlen4
  have hg := getBits_ofU32 (idealCombine buf f.bytes) bc.Start bc.Num hV hSN
    h1 h31
  unfold idealCombine at hg
  by_cases hm : f.multiplier = 1
  · simp only [hm, hg, Nat.and_pow_two_sub_one_eq_mod, idealCombine]
    norm_cast
    simp
  · simp only [hg, Nat.and_pow_two_sub_one_eq_mod, idealCombine, ne_eq,
      if_pos hm]
    norm_cast

/-- A fully in-bounds one-byte bit-packed field with a single 8-bit
subfield. -/
def wBitLabelField : UdpField :=
  { label := "F", bytes := [0], type := none, unit := "",
    bits := some [⟨"B", 0, 8⟩], use_bits := 1 }

/-- Counterexample to C4 as stated: the emitted sample's label is
`"m_F_B"` (message identity, field label, subfield name), not the claimed
`"<field label>_<subfield name>"` = `"F_B"`. -/
theorem bit_packed_label_counterexample :
    (fieldSamples wDepBuffer 17 wBitLabelField 0 "m" "d" "h").map
        (fun s => s.label) = ["m_F_B"] ∧
    "m_F_B" ≠ wBitLabelField.label ++ "_" ++ "B" := by
  constructor <;> decide

/-- Witness for C4's amended theorem on the same concrete field. -/
theorem bit_packed_field_samples_witness :
    fieldSamples wDepBuffer 17 wBitLabelField 0 "m" "d" "h" =
      ([⟨"B", 0, 8⟩] : List BitDef).map (fun bc =>
        { label := "m" ++ "_" ++ wBitLabelField.label ++ "_" ++ bc.Name
          unit := wBitLabelField.unit
          isEnum := false
          series := [((0 : ℚ),
            ((((idealCombine wDepBuffer wBitLabelField.bytes >>> bc.Start) &&&
              (2 ^ bc.Num - 1) : Nat)) : ℚ) * wBitLabelField.multiplier)]
          id := "d" ++ "_" ++ "h" ++ "_" ++ wBitLabelField.label ++ "_" ++
            bc.Name
          sender := "d" }) :=
  bit_packed_field_samples wDepBuffer 17 wBitLabelField 0 "m" "d" "h"
    [⟨"B", 0, 8⟩] (by decide) (by decide) (by decide) (by decide) (by decide)
    (by decide)

/-! ### C6 — row independence over the shared scratch buffer

The decoder's reads are bounds-checked against the row length except for the
typed scalar reads (`getUint16`/`getUint32`/`getFloat32`), whose span is the
type's width while the bounds check only covers the declared byte-offset
list. When every scalar field declares at least as many bytes as its type's
width — as the shipped descriptors do — every read stays inside the current
row, and decoding a row is a function of the row alone. A descriptor
declaring fewer bytes than its width breaks this (see the counterexample).
-/

/-- Two buffer states agree on all bytes below `L`. -/
def AgreeBelow (L : Nat) (b₁ b₂ : Buffer) : Prop :=
  ∀ i, i < L → byteAt b₁ i = byteAt b₂ i

/-- The byte width of one typed scalar read; types read byte-by-byte
(u8, bool, u64) carry width 1 since each of their reads is individually
bounds-checked. -/
def widthOf : DataType → Nat
  | .uint16_t => 2
  | .uint32_t => 4
  | .float => 4
  | _ => 1

/-- A field declares at least as many bytes as its scalar type's width. -/
def widthOkB (f : UdpField) : Bool :=
  match f.type with
  | none => true
  | some dt => widthOf dt ≤ f.bytes.length

def sectionWidthOkB (s : MessageSection) : Bool :=
  s.Prefixes.all (fun p => p.2.Fields.all widthOkB) &&
    s.Messages.all (fun m => m.2.Fields.all widthOkB)

/-- Every field reachable through the descriptor tree is width-consistent. -/
def configWidthOkB (cfg : UdpConfig) : Bool :=
  sectionWidthOkB cfg.dockMessages && sectionWidthOkB cfg.swarmBotMessages &&
    sectionWidthOkB cfg.otherMessages

theorem agreeBelow_writeRow (l : List Nat) (b₁ b₂ : Buffer) :
    AgreeBelow l.length (writeRow b₁ l) (writeRow b₂ l) := by
  intro i hi
  unfold byteAt writeRow
  simp only [if_pos hi]

theorem byteAt_writeRow_ge (b : Buffer) (l : List Nat) (i : Nat)
    (h : l.length ≤ i) : byteAt (writeRow b l) i = byteAt b i := by
  unfold byteAt writeRow
  rw [if_neg (by omega)]

theorem readU8_congr {L : Nat} {b₁ b₂ : Buffer} (h : AgreeBelow L b₁ b₂)
    (i : Nat) (hi : i < L) : readU8 b₁ i = readU8 b₂ i := by
  unfold readU8
  rw [h i hi]

theorem readU16_congr {L : Nat} {b₁ b₂ : Buffer} (h : AgreeBelow L b₁ b₂)
    (i : Nat) (hi : i + 2 ≤ L) : readU16 b₁ i = readU16 b₂ i := by
  unfold readU16
  rw [h i (by omega), h (i + 1) (by omega)]

theorem readU32_congr {L : Nat} {b₁ b₂ : Buffer} (h : AgreeBelow L b₁ b₂)
    (i : Nat) (hi : i + 4 ≤ L) : readU32 b₁ i = readU32 b₂ i := by
  unfold readU32
  rw [h i (by omega), h (i + 1) (by omega), h (i + 2) (by omega),
    h (i + 3) (by omega)]

theorem readF32_congr {L : Nat} {b₁ b₂ : Buffer} (h : AgreeBelow L b₁ b₂)
    (i : Nat) (hi : i + 4 ≤ L) : readF32 b₁ i = readF32 b₂ i := by
  unfold readF32
  rw [readU32_congr h i hi]

theorem u64AccGo_congr {L : Nat} {b₁ b₂ : Buffer} (h : AgreeBelow L b₁ b₂) :
    ∀ (offs : List Nat) (j : Nat) (acc : Int),
      (∀ o ∈ offs, o < L) →
      u64AccGo b₁ offs j acc = u64AccGo b₂ offs j acc := by
  intro offs
  induction offs with
  | nil => intro j acc _; rfl
  | cons o rest ih =>
    intro j acc hoffs
    simp only [u64AccGo]
    by_cases hj : j < 8
    · simp only [if_pos hj,
        readU8_congr h o (hoffs o (List.mem_cons_self o rest))]
      cases hcase : readU8 b₂ o with
      | none => rfl
      | some b => exact ih _ _ (fun x hx => hoffs x (List.mem_cons_of_mem o hx))
    · simp only [if_neg hj]

theorem headD_mem {α : Type} [Inhabited α] (l : List α) (d : α)
    (h : l ≠ []) : l.headD d ∈ l := by
  cases l with
  | nil => exact absurd rfl h
  | cons a as => exact List.mem_cons_self a as

theorem getNumericValueFromBytes_congr {L : Nat} {b₁ b₂ : Buffer}
    (h : AgreeBelow L b₁ b₂) (offs : List Nat) (dt : DataType)
    (hne : offs ≠ []) (hoffs : ∀ o ∈ offs, o < L)
    (hw : offs.headD 0 + widthOf dt ≤ L) :
    getNumericValueFromBytes b₁ offs dt =
      getNumericValueFromBytes b₂ offs dt := by
  have hhead : offs.headD 0 < L := hoffs _ (headD_mem offs 0 hne)
  cases dt with
  | uint8_t =>
    have he := readU8_congr h (offs.headD 0) hhead
    simp only [getNumericValueFromBytes, he]
  | uint16_t =>
    have he := readU16_congr h (offs.headD 0) (by simpa [widthOf] using hw)
    simp only [getNumericValueFromBytes, he]
  | uint32_t =>
    have he := readU32_congr h (offs.headD 0) (by simpa [widthOf] using hw)
    simp only [getNumericValueFromBytes, he]
  | uint64_t =>
    have he := u64AccGo_congr h offs 0 0 hoffs
    simp only [getNumericValueFromBytes, he]
  | float =>
    have he := readF32_congr h (offs.headD 0) (by simpa [widthOf] using hw)
    simp only [getNumericValueFromBytes, he]
  | bool =>
    have he := readU8_congr h (offs.headD 0) hhead
    simp only [getNumericValueFromBytes, he]

theorem getDependentBit_congr {L : Nat} {b₁ b₂ : Buffer}
    (h : AgreeBelow L b₁ b₂) (len : Nat) (dep : FieldDep) (hlen : len ≤ L) :
    getDependentBit b₁ len dep = getDependentBit b₂ len dep := by
  unfold getDependentBit
  by_cases hc : UDP_HEADER_LENGTH + dep.byte ≥ len ∨ dep.bit < 0 ∨ dep.bit > 7
  · rw [if_pos hc, if_pos hc]
  · rw [if_neg hc, if_neg hc, h (UDP_HEADER_LENGTH + dep.byte) (by
      push_neg at hc
      omega)]

theorem resolveFinalLabel_congr {L : Nat} {b₁ b₂ : Buffer}
    (h : AgreeBelow L b₁ b₂) (len : Nat) (label : String)
    (dep : Option FieldDep) (hlen : len ≤ L) :
    resolveFinalLabel b₁ len label dep = resolveFinalLabel b₂ len label dep := by
  cases dep with
  | none => rfl
  | some d =>
    simp only [resolveFinalLabel, getDependentBit_congr h len d hlen]

theorem combineBitBytes_congr {L : Nat} {b₁ b₂ : Buffer}
    (h : AgreeBelow L b₁ b₂) (len : Nat) (hlen : len ≤ L) :
    ∀ (bytes : List Nat) (j : Nat) (acc : Int),
      combineBitBytes b₁ len bytes j acc = combineBitBytes b₂ len bytes j acc := by
  intro bytes
  induction bytes with
  | nil => intro j acc; rfl
  | cons b rest ih =>
    intro j acc
    simp only [combineBitBytes]
    by_cases hb : UDP_HEADER_LENGTH + b ≥ len
    · rw [if_pos hb, if_pos hb]
    · rw [if_neg hb, if_neg hb, h (UDP_HEADER_LENGTH + b) (by omega), ih]

theorem bitFieldSamples_congr {L : Nat} {b₁ b₂ : Buffer}
    (h : AgreeBelow L b₁ b₂) (len : Nat) (f : UdpField) (finalLabel : String)
    (ts : ℚ) (messageIdStr deviceName messageIdHex : String)
    (bcs : List BitDef) (hlen : len ≤ L) :
    bitFieldSamples b₁ len f finalLabel ts messageIdStr deviceName
        messageIdHex bcs =
      bitFieldSamples b₂ len f finalLabel ts messageIdStr deviceName
        messageIdHex bcs := by
  unfold bitFieldSamples
  rw [combineBitBytes_congr h len hlen]

theorem scalarFieldSamples_congr {L : Nat} {b₁ b₂ : Buffer}
    (h : AgreeBelow L b₁ b₂) (len : Nat) (f : UdpField) (finalLabel : String)
    (ts : ℚ) (deviceName messageIdHex : String)
    (hwf : widthOkB f = true) (hlen : len ≤ L) :
    scalarFieldSamples b₁ len f finalLabel ts deviceName messageIdHex =
      scalarFieldSamples b₂ len f finalLabel ts deviceName messageIdHex := by
  unfold scalarFieldSamples
  cases htype : f.type with
  | none => rfl
  | some dt =>
    dsimp only
    by_cases hbne : f.bytes = []
    · rw [if_pos hbne, if_pos hbne]
    · rw [if_neg hbne, if_neg hbne]
      by_cases hguard : (f.bytes.map (fun idx => UDP_HEADER_LENGTH + idx)).headD 0 +
          f.bytes.length > len ∨
        (f.bytes.map (fun idx => UDP_HEADER_LENGTH + idx)).any
          (fun offset => offset ≥ len)
      · rw [if_pos hguard, if_pos hguard]
      · rw [if_neg hguard, if_neg hguard]
        have hspan : (f.bytes.map (fun idx => UDP_HEADER_LENGTH + idx)).headD 0 +
            f.bytes.length ≤ len := by
          by_contra hc
          exact hguard (Or.inl (by omega))
        have hanyf : ((f.bytes.map (fun idx => UDP_HEADER_LENGTH + idx)).any
            (fun offset => offset ≥ len)) = false := by
          cases hq : (f.bytes.map (fun idx => UDP_HEADER_LENGTH + idx)).any
              (fun offset => offset ≥ len)
          · rfl
          · exact absurd (Or.inr hq) hguard
        have hoffs : ∀ o ∈ f.bytes.map (fun idx => UDP_HEADER_LENGTH + idx),
            o < L := by
          intro o ho
          have hno := List.any_eq_false.mp hanyf o ho
          simp only [ge_iff_le, decide_eq_true_eq, not_le] at hno
          omega
        have hne2 : f.bytes.map (fun idx => UDP_HEADER_LENGTH + idx) ≠ [] := by
          simpa using hbne
        have hwd : widthOf dt ≤ f.bytes.length := by
          simp only [widthOkB, htype, decide_eq_true_eq] at hwf
          exact hwf
        have hw : (f.bytes.map (fun idx => UDP_HEADER_LENGTH + idx)).headD 0 +
            widthOf dt ≤ L := by
          omega
        rw [getNumericValueFromBytes_congr h _ dt hne2 hoffs hw]

theorem fieldSamples_congr {L : Nat} {b₁ b₂ : Buffer}
    (h : AgreeBelow L b₁ b₂) (len : Nat) (f : UdpField) (ts : ℚ)
    (messageIdStr deviceName messageIdHex : String)
    (hwf : widthOkB f = true) (hlen : len ≤ L) :
    fieldSamples b₁ len f ts messageIdStr deviceName messageIdHex =
      fieldSamples b₂ len f ts messageIdStr deviceName messageIdHex := by
  unfold fieldSamples
  rw [resolveFinalLabel_congr h len f.label f.dependent_on hlen]
  by_cases hub : f.use_bits = 1
  · simp only [if_pos hub]
    cases f.bits with
    | none =>
      exact scalarFieldSamples_congr h len f _ ts deviceName messageIdHex
        hwf hlen
    | some bcs =>
      exact bitFieldSamples_congr h len f _ ts messageIdStr deviceName
        messageIdHex bcs hlen
  · simp only [if_neg hub]
    exact scalarFieldSamples_congr h len f _ ts deviceName messageIdHex
      hwf hlen

theorem parseFieldsFromConfig_congr {L : Nat} {b₁ b₂ : Buffer}
    (h : AgreeBelow L b₁ b₂) (len : Nat) (fields : List UdpField) (ts : ℚ)
    (messageIdStr deviceName messageIdHex : String)
    (hwf : fields.all widthOkB = true) (hlen : len ≤ L) :
    parseFieldsFromConfig b₁ len fields ts messageIdStr deviceName
        messageIdHex =
      parseFieldsFromConfig b₂ len fields ts messageIdStr deviceName
        messageIdHex := by
  unfold parseFieldsFromConfig
  congr 1
  apply List.map_congr_left
  intro f hf
  exact fieldSamples_congr h len f ts messageIdStr deviceName messageIdHex
    (by
      rw [List.all_eq_true] at hwf
      exact hwf f hf) hlen

theorem lookup_mem {α β : Type} [BEq α] [LawfulBEq α] (l : List (α × β))
    (k : α) (v : β) (h : l.lookup k = some v) : (k, v) ∈ l := by
  induction l with
  | nil => simp [List.lookup] at h
  | cons p rest ih =>
    rw [List.lookup] at h
    cases hk : k == p.1 with
    | true =>
      rw [hk] at h
      dsimp only at h
      simp only [Option.some.injEq] at h
      have hkp : k = p.1 := eq_of_beq hk
      have hv : (k, v) = p := by
        rw [hkp, ← h]
      rw [hv]
      exact List.mem_cons_self p rest
    | false =>
      rw [hk] at h
      exact List.mem_cons_of_mem _ (ih h)

/-- Fields reached through a width-consistent section are width-consistent. -/
theorem resolveMessage_widthOk (s : MessageSection) (messageIdLE : Nat)
    (deviceName messageIdHex : String) (cm : ConfigMessage) (str : String)
    (hs : sectionWidthOkB s = true)
    (hres : resolveMessage s messageIdLE deviceName messageIdHex =
      some (cm, str)) :
    cm.Fields.all widthOkB = true := by
  unfold sectionWidthOkB at hs
  rw [Bool.and_eq_true] at hs
  obtain ⟨hp, hm⟩ := hs
  simp only [resolveMessage] at hres
  cases hpc : s.Prefixes.lookup (toString (messageIdLE / 256 % 256)) with
  | some p =>
    rw [hpc] at hres
    dsimp only at hres
    simp only [Option.some.injEq, Prod.mk.injEq] at hres
    obtain ⟨hcm, _⟩ := hres
    rw [← hcm]
    rw [List.all_eq_true] at hp ⊢
    intro f hf
    exact List.all_eq_true.mp
      (hp _ (lookup_mem s.Prefixes _ p hpc)) f hf
  | none =>
    rw [hpc] at hres
    dsimp only at hres
    cases hmc : s.Messages.lookup (toString messageIdLE) with
    | some m =>
      rw [hmc] at hres
      dsimp only at hres
      simp only [Option.some.injEq, Prod.mk.injEq] at hres
      obtain ⟨hcm, _⟩ := hres
      rw [← hcm]
      rw [List.all_eq_true] at hm ⊢
      intro f hf
      exact List.all_eq_true.mp
        (hm _ (lookup_mem s.Messages _ m hmc)) f hf
    | none =>
      rw [hmc] at hres
      cases hres

theorem headerU16_congr {L : Nat} {b₁ b₂ : Buffer} (h : AgreeBelow L b₁ b₂)
    (i : Nat) (hi : i + 2 ≤ L) : headerU16 b₁ i = headerU16 b₂ i := by
  unfold headerU16
  rw [h i (by omega), h (i + 1) (by omega)]

theorem getMessageIdHex_congr {L : Nat} {b₁ b₂ : Buffer}
    (h : AgreeBelow L b₁ b₂) (hL : 8 ≤ L) :
    getMessageIdHex b₁ = getMessageIdHex b₂ := by
  unfold getMessageIdHex
  rw [h 6 (by omega), h 7 (by omega)]

/-- The section the resolver picks is width-consistent when the whole tree
is. -/
theorem sectionFor_widthOk (cfg : UdpConfig) (name : String)
    (hcfg : configWidthOkB cfg = true) :
    sectionWidthOkB (sectionFor cfg name) = true := by
  unfold configWidthOkB at hcfg
  rw [Bool.and_eq_true, Bool.and_eq_true] at hcfg
  unfold sectionFor
  by_cases h1 : name = "dock"
  · simp only [if_pos h1]
    exact hcfg.1.1
  · simp only [if_neg h1]
    by_cases h2 : name = "swarmbot"
    · simp only [if_pos h2]
      exact hcfg.1.2
    · simp only [if_neg h2]
      exact hcfg.2

/-- Decoding a (length-valid, copied-in) row reads nothing outside the row
when the descriptor tree is width-consistent. -/
theorem processRow_congr (cfg : UdpConfig) (row : LogRow) {b₁ b₂ : Buffer}
    (hcfg : configWidthOkB cfg = true)
    (h : AgreeBelow row.log.length b₁ b₂)
    (hmin : UDP_HEADER_LENGTH ≤ row.log.length) :
    processRow cfg b₁ row = processRow cfg b₂ row := by
  have h16 : (16 : Nat) ≤ row.log.length := hmin
  have hdev := headerU16_congr h 0 (by omega)
  have hmsg := headerU16_congr h 6 (by omega)
  have hhex := getMessageIdHex_congr h (by omega)
  simp only [processRow, hdev, hmsg, hhex]
  cases hres : resolveMessage
      (sectionFor cfg (deviceNameOf (headerU16 b₂ 0))) (headerU16 b₂ 6)
      (deviceNameOf (headerU16 b₂ 0)) (getMessageIdHex b₂) with
  | none => rfl
  | some pair =>
    obtain ⟨cm, str⟩ := pair
    exact parseFieldsFromConfig_congr h row.log.length cm.Fields row.date
      str (deviceNameOf (headerU16 b₂ 0)) (getMessageIdHex b₂)
      (resolveMessage_widthOk _ _ _ _ cm str
        (sectionFor_widthOk cfg _ hcfg) hres) (le_refl _)

/-- C6 (amended): provided every scalar field in the descriptor tree
declares at least as many byte offsets as its scalar type's width (2 for
u16, 4 for u32/f32 — true of the shipped descriptors), the samples emitted
for a length-valid row are a function of that row's bytes, its timestamp and
the descriptor tree only: whatever rows were processed before it, and
whatever the scratch buffer held, decoding the identical row yields
identical samples, because each row's bytes are fully copied in before any
read and under the proviso all reads stay within the current row's length.
Without the proviso a typed scalar read can span past the row into stale
buffer bytes (see the counterexample). -/
theorem row_noninterference (cfg : UdpConfig) (r : LogRow)
    (hcfg : configWidthOkB cfg = true)
    (hmin : UDP_HEADER_LENGTH ≤ r.log.length)
    (hmax : r.log.length ≤ MAX_UDP_MESSAGE_LENGTH)
    (pre₁ pre₂ : List LogRow) (b₁ b₂ : Buffer) :
    transformGo cfg [r] (runBuffer pre₁ b₁) =
      transformGo cfg [r] (runBuffer pre₂ b₂) := by
  have hguard : ¬(r.log.length > MAX_UDP_MESSAGE_LENGTH ∨
      r.log.length < UDP_HEADER_LENGTH) := by
    push_neg
    exact ⟨hmax, hmin⟩
  rw [transformGo_cons_take cfg r [] _ hguard,
    transformGo_cons_take cfg r [] _ hguard]
  have hagree : AgreeBelow r.log.length
      (writeRow (runBuffer pre₁ b₁) r.log) (writeRow (runBuffer pre₂ b₂) r.log) :=
    agreeBelow_writeRow r.log (runBuffer pre₁ b₁) (runBuffer pre₂ b₂)
  rw [processRow_congr cfg r hcfg hagree hmin]
  simp [transformGo]

/-- Witness for C6: the same row decodes identically after two different
prefixes of rows. -/
theorem row_noninterference_witness :
    transformGo wOtherCfg [wRowC1] (runBuffer [] Buffer.empty) =
      transformGo wOtherCfg [wRowC1]
        (runBuffer [wRowUnknownDevice] Buffer.empty) :=
  row_noninterference wOtherCfg wRowC1 (by decide) (by decide) (by decide)
    [] [wRowUnknownDevice] Buffer.empty Buffer.empty

/-- A u32 field declaring only one byte offset: the bounds check covers one
byte while `getUint32` reads four. -/
def c6Field : UdpField :=
  { label := "G", bytes := [16], type := some .uint32_t, unit := "" }

def c6PrefixEntry : PrefixEntry := ⟨"p", "d", [c6Field]⟩

def c6cfg : UdpConfig :=
  ⟨⟨[], []⟩, ⟨[], []⟩, ⟨[("0", c6PrefixEntry)], []⟩⟩

/-- A 33-byte row from device 1 with message identifier 2 whose last payload
byte (absolute offset 32) is 5: the u32 read at 32 spans stale bytes
33..35. -/
def c6rowX : LogRow :=
  ⟨0, [1, 0, 0, 0, 0, 0, 2, 0, 0, 0, 0, 0, 0, 0, 0, 0,
       0, 0, 0, 0, 0, 0, 0, 0, 0, 0, 0, 0, 0, 0, 0, 0, 5]⟩

/-- A 36-byte all-255 row: unresolvable (device 65535, prefix 255), so it
emits nothing — but it fills the scratch buffer with 255s. -/
def c6row0 : LogRow := ⟨0, List.replicate 36 255⟩

/-- Decoding `c6rowX` reads the three stale bytes 33..35 from whatever the
scratch buffer held before the row was copied in. -/
theorem c6_rowX_eval (buf : Buffer) :
    transformGo c6cfg [c6rowX] buf =
      [{ label := "G"
         unit := ""
         isEnum := false
         series := [(0, ((5 + 256 * byteAt buf 33 + 65536 * byteAt buf 34 +
           16777216 * byteAt buf 35 : Nat) : ℚ))]
         id := "mower" ++ "_" ++ "0002" ++ "_" ++ "G"
         sender := "mower" }] := by
  have hguard : ¬(c6rowX.log.length > MAX_UDP_MESSAGE_LENGTH ∨
      c6rowX.log.length < UDP_HEADER_LENGTH) := by decide
  rw [transformGo_cons_take c6cfg c6rowX [] buf hguard]
  set bufR := writeRow buf c6rowX.log with hbufR
  have hlen33 : c6rowX.log.length = 33 := by decide
  have hbyte : ∀ i, i < 33 → byteAt bufR i = c6rowX.log.getD i 0 := by
    intro i hi
    exact byteAt_writeRow buf c6rowX.log i (by omega) (by decide)
  have hdev : headerU16 bufR 0 = 1 := by
    unfold headerU16
    rw [hbyte 0 (by norm_num), hbyte 1 (by norm_num)]
    decide
  have hmsg : headerU16 bufR 6 = 2 := by
    unfold headerU16
    rw [hbyte 6 (by norm_num), hbyte 7 (by norm_num)]
    decide
  have hhex : getMessageIdHex bufR = "0002" := by
    unfold getMessageIdHex
    rw [hbyte 7 (by norm_num), hbyte 6 (by norm_num)]
    decide
  have hname : deviceNameOf 1 = "mower" := by decide
  have hsec : sectionFor c6cfg "mower" = c6cfg.otherMessages := rfl
  have hres : resolveMessage c6cfg.otherMessages 2 "mower" "0002" =
      some (.ofPrefixEntry c6PrefixEntry, "mower" ++ ":" ++ "0002") := by
    decide
  simp only [processRow, hdev, hmsg, hhex, hname, hsec, hres,
    ConfigMessage.Fields, c6PrefixEntry, parseFieldsFromConfig,
    List.map_cons, List.map_nil, List.flatten_cons, List.flatten_nil,
    List.append_nil]
  have hub : ¬(c6Field.use_bits = 1) := by decide
  have hlabel : resolveFinalLabel bufR c6rowX.log.length c6Field.label
      c6Field.dependent_on = c6Field.label := rfl
  simp only [fieldSamples, if_neg hub, hlabel]
  have h32 : byteAt bufR 32 = 5 := by
    rw [hbyte 32 (by norm_num)]
    decide
  have h33 : byteAt bufR 33 = byteAt buf 33 :=
    byteAt_writeRow_ge buf c6rowX.log 33 (by decide)
  have h34 : byteAt bufR 34 = byteAt buf 34 :=
    byteAt_writeRow_ge buf c6rowX.log 34 (by decide)
  have h35 : byteAt bufR 35 = byteAt buf 35 :=
    byteAt_writeRow_ge buf c6rowX.log 35 (by decide)
  have hraw : rawScalarValue bufR
      (c6Field.bytes.map (fun idx => UDP_HEADER_LENGTH + idx)) .uint32_t =
      some ((5 + 256 * byteAt buf 33 + 65536 * byteAt buf 34 +
        16777216 * byteAt buf 35 : Nat) : ℚ) := by
    show (readU32 bufR 32).map _ = _
    unfold readU32
    rw [if_pos (by norm_num [MAX_UDP_MESSAGE_LENGTH])]
    rw [h32, h33, h34, h35]
    simp
  have hbne : c6Field.bytes ≠ [] := by decide
  have hg : ¬((c6Field.bytes.map (fun idx => UDP_HEADER_LENGTH + idx)).headD 0 +
      c6Field.bytes.length > c6rowX.log.length ∨
    (c6Field.bytes.map (fun idx => UDP_HEADER_LENGTH + idx)).any
      (fun offset => offset ≥ c6rowX.log.length)) := by decide
  rw [scalarFieldSamples_eval bufR c6rowX.log.length c6Field c6Field.label
    c6rowX.date "mower" "0002" .uint32_t _ rfl hbne hg hraw]
  rw [roundTo3_natCast]
  norm_num [c6Field, transformGo]
  rfl

/-- Counterexample to C6 as stated: the identical row `c6rowX` produces
different samples depending on which rows preceded it — the 255-filled row
`c6row0` emits nothing itself, yet its bytes leak into `c6rowX`'s decoded
value through the reused scratch buffer, because the u32 read at the row's
last byte extends past the row's length. -/
theorem shared_buffer_noninterference_counterexample :
    transformUDPLogToTimeSeries c6cfg [c6row0, c6rowX] ≠
      transformUDPLogToTimeSeries c6cfg [c6rowX] ∧
    transformUDPLogToTimeSeries c6cfg [c6row0] = [] := by
  have hg0 : ¬(c6row0.log.length > MAX_UDP_MESSAGE_LENGTH ∨
      c6row0.log.length < UDP_HEADER_LENGTH) := by decide
  have hz : processRow c6cfg (writeRow Buffer.empty c6row0.log) c6row0 = [] := by
    decide
  constructor
  · unfold transformUDPLogToTimeSeries
    rw [transformGo_cons_take c6cfg c6row0 [c6rowX] Buffer.empty hg0, hz,
      List.nil_append, c6_rowX_eval, c6_rowX_eval]
    have ha : byteAt (writeRow Buffer.empty c6row0.log) 33 = 255 := by decide
    have hb : byteAt (writeRow Buffer.empty c6row0.log) 34 = 255 := by decide
    have hc : byteAt (writeRow Buffer.empty c6row0.log) 35 = 255 := by decide
    have hd : byteAt Buffer.empty 33 = 0 := by decide
    have he : byteAt Buffer.empty 34 = 0 := by decide
    have hf : byteAt Buffer.empty 35 = 0 := by decide
    rw [ha, hb, hc, hd, he, hf]
    intro hcontra
    have hv := congrArg
      (fun l => ((l.headD ⟨"", "", "", false, [], ""⟩).series.headD
        ((0 : ℚ), (0 : ℚ))).2) hcontra
    simp only [List.headD_cons] at hv
    have hn := (Nat.cast_inj (R := ℚ)).mp hv
    omega
  · decide

end Bung
